import Mathlib

/-!
# nerdweb: route ordering and middleware composition

A shallow embedding of the `nerdweb` package (Endpoint.go, Server.go, REST.go,
BasicWebApp.go, Requests.go, Responses.go, Paging.go and the `middlewares`
package) together with the part of Go's
standard `sort` package that `sort.Sort(config.Endpoints)` runs (the pattern
defeating quicksort of Go 1.19 and later), followed by theorems about them.

Conventions
* a Go slice is a `List`; indexing outside the slice panics, which is modelled
  as `Except.error`;
* a Go `panic(msg)` is `Except.error msg`;
* Go `int` indices are `Nat`: every index the code computes is non-negative and
  far below `2^63`; loops that count down to `-1` are written as recursion on
  the number of remaining iterations;
* `len(s)` of a Go string is its length in bytes, `String.utf8ByteSize`.
-/

set_option autoImplicit false

namespace nerdweb

/-! ## Endpoint.go -/

/-- Endpoint of Endpoint.go. The two handler fields are opaque callables that
the ordering never inspects; they are left out of the model. -/
structure Endpoint where
  Path : String
  Methods : List String
deriving DecidableEq, Repr, Inhabited

/-- Endpoints is `[]*Endpoint`. -/
abbrev Endpoints := List Endpoint

/-- Go `strings.Contains(s, substr)`: some suffix of `s` starts with `substr`. -/
def Contains (s substr : String) : Bool :=
  s.data.tails.any (fun t => substr.data.isPrefixOf t)

/-- isDynamic of Endpoint.go: the url contains an opening brace (`\x7b`) and a
closing brace (`\x7d`). -/
def isDynamic (url : String) : Bool :=
  Contains url "\x7b" && Contains url "\x7d"

/-- Go `len(s)` for a string: the number of bytes. -/
def len (s : String) : Nat := s.utf8ByteSize

/-- The message of the panic raised by `Endpoints.Less`. -/
def samePanic : String := "Two endpoints can't be same"

/-- The message used for a Go run-time index panic. -/
def indexPanic : String := "index out of range"

/-- Endpoints.Len. -/
def Endpoints.Len (a : Endpoints) : Nat := a.length

/-- Endpoints.Swap: `a[i], a[j] = a[j], a[i]`. -/
def Endpoints.Swap (a : Endpoints) (i j : Nat) : Except String Endpoints :=
  match a[i]?, a[j]? with
  | some x, some y => .ok ((a.set i y).set j x)
  | _, _ => .error indexPanic

/-- Endpoints.Less. -/
def Endpoints.Less (a : Endpoints) (i j : Nat) : Except String Bool :=
  match a[i]?, a[j]? with
  | some x, some y =>
    let firstDynamic := isDynamic x.Path
    let secondDynamic := isDynamic y.Path
    if firstDynamic && !secondDynamic then .ok false
    else if !firstDynamic && secondDynamic then .ok true
    else if len x.Path ≠ len y.Path then .ok (decide (len x.Path > len y.Path))
    else if x.Path = y.Path then .error samePanic
    else .ok true
  | _, _ => .error indexPanic

/-! ## Go's `sort` package, as run by `sort.Sort(config.Endpoints)`

The functions below follow `sort/zsortinterface.go` and `sort/sort.go`, with the
`data Interface` argument specialised to `Endpoints`. -/

/-- The inner loop of insertionSort:
`for j := i; j > a && data.Less(j, j-1); j-- { data.Swap(j, j-1) }`. -/
def insertionInner (a : Nat) : Nat → Endpoints → Except String Endpoints
  | 0, data => .ok data
  | j + 1, data =>
    if a < j + 1 then do
      if (← data.Less (j + 1) j) then
        insertionInner a j (← data.Swap (j + 1) j)
      else pure data
    else pure data

/-- The outer loop of insertionSort, `for i := ...; i < b; i++`, with `n = b - i`
iterations left. -/
def insertionOuter (a : Nat) : Nat → Nat → Endpoints → Except String Endpoints
  | 0, _, data => .ok data
  | n + 1, i, data => do
    insertionOuter a n (i + 1) (← insertionInner a i data)

/-- insertionSort sorts `data[a:b]` using insertion sort. -/
def insertionSort (data : Endpoints) (a b : Nat) : Except String Endpoints :=
  insertionOuter a (b - (a + 1)) (a + 1) data

/-- The message returned when a loop runs out of its iteration budget. No Go
behaviour corresponds to it; the theorems show it never arises. -/
def fuelOut : String := "out of fuel"

/-- The loop of siftDown, started at `root`, with an iteration budget. -/
def siftDownLoop (hi first : Nat) : Nat → Nat → Endpoints → Except String Endpoints
  | 0, _, _ => .error fuelOut
  | fuel + 1, root, data =>
    let child := 2 * root + 1
    if child ≥ hi then pure data
    else do
      let lt ← if child + 1 < hi then data.Less (first + child) (first + child + 1)
               else pure false
      let child := if lt then child + 1 else child
      if !(← data.Less (first + root) (first + child)) then pure data
      else siftDownLoop hi first fuel child (← data.Swap (first + root) (first + child))

/-- siftDown implements the heap property on `data[lo:hi]`; `first` is the
offset of the root of the heap. -/
def siftDown (data : Endpoints) (lo hi first : Nat) : Except String Endpoints :=
  siftDownLoop hi first (hi + 1) lo data

/-- The first loop of heapSort, `for i := (hi - 1) / 2; i >= 0; i--`, with
`n = i + 1` iterations left. -/
def heapBuild (hi first : Nat) : Nat → Endpoints → Except String Endpoints
  | 0, data => .ok data
  | i + 1, data => do
    heapBuild hi first i (← siftDown data i hi first)

/-- The second loop of heapSort, `for i := hi - 1; i >= 0; i--`, with
`n = i + 1` iterations left. -/
def heapPop (first : Nat) : Nat → Endpoints → Except String Endpoints
  | 0, data => .ok data
  | i + 1, data => do
    let data ← data.Swap first (first + i)
    heapPop first i (← siftDown data 0 i first)

/-- Function heapSort of the sort package. -/
def heapSort (data : Endpoints) (a b : Nat) : Except String Endpoints := do
  let first := a
  let hi := b - a
  let data ← heapBuild hi first ((hi - 1) / 2 + 1) data
  heapPop first hi data

/-- Go `bits.Len(uint(n))`: the number of bits needed to write `n`. -/
def bitsLen (n : Nat) : Nat := if n = 0 then 0 else Nat.log2 n + 1

/-- One step of `xorshift.Next` on a `uint64` state (shifts 13, 7, 17); the new
state is also the value returned. Only breakPatterns draws from it. -/
def xorshiftNext (r : Nat) : Nat :=
  let r := r ^^^ ((r <<< 13) % 2 ^ 64)
  let r := r ^^^ (r >>> 7)
  let r := r ^^^ ((r <<< 17) % 2 ^ 64)
  r

/-- Function nextPowerOfTwo of the sort package. -/
def nextPowerOfTwo (length : Nat) : Nat := (1 <<< bitsLen length) % 2 ^ 64

/-- The loop of breakPatterns, `for i := 0; i < 3; i++`, with `n = 3 - i`
iterations left: iteration `i` swaps the element at `idx + i` with the one at
`a + other`. -/
def breakLoop (a length modulus idx : Nat) :
    Nat → Nat → Nat → Endpoints → Except String Endpoints
  | 0, _, _, data => .ok data
  | n + 1, i, random, data => do
    let random := xorshiftNext random
    let other := random &&& (modulus - 1)
    let other := if other ≥ length then other - length else other
    breakLoop a length modulus idx n (i + 1) random (← data.Swap (idx + i) (a + other))

/-- breakPatterns scatters some elements around. -/
def breakPatterns (data : Endpoints) (a b : Nat) : Except String Endpoints :=
  let length := b - a
  if length ≥ 8 then
    breakLoop a length (nextPowerOfTwo length) (a + (length / 4) * 2 - 1) 3 0 length data
  else pure data

/-- The hint type of the sort package. -/
inductive sortedHint where
  | unknownHint
  | increasingHint
  | decreasingHint
deriving DecidableEq, Repr

/-- order2 returns `x, y` with `data[x] <= data[y]`; the swap counter is
threaded through. -/
def order2 (data : Endpoints) (a b swaps : Nat) : Except String (Nat × Nat × Nat) := do
  if (← data.Less b a) then pure (b, a, swaps + 1) else pure (a, b, swaps)

/-- median returns the index of the median of `data[a], data[b], data[c]`. -/
def median (data : Endpoints) (a b c swaps : Nat) : Except String (Nat × Nat) := do
  let (a, b, swaps) ← order2 data a b swaps
  let (b, _, swaps) ← order2 data b c swaps
  let (_, b, swaps) ← order2 data a b swaps
  pure (b, swaps)

/-- medianAdjacent finds the median of `data[a - 1], data[a], data[a + 1]`. -/
def medianAdjacent (data : Endpoints) (a swaps : Nat) : Except String (Nat × Nat) :=
  median data (a - 1) a (a + 1) swaps

/-- choosePivot chooses a pivot in `data[a:b]`. -/
def choosePivot (data : Endpoints) (a b : Nat) : Except String (Nat × sortedHint) := do
  let l := b - a
  let swaps := 0
  let i := a + l / 4 * 1
  let j := a + l / 4 * 2
  let k := a + l / 4 * 3
  let (j, swaps) ←
    if l ≥ 8 then do
      let (i, j, k, swaps) ←
        if l ≥ 50 then do
          let (i, swaps) ← medianAdjacent data i swaps
          let (j, swaps) ← medianAdjacent data j swaps
          let (k, swaps) ← medianAdjacent data k swaps
          pure (i, j, k, swaps)
        else pure (i, j, k, swaps)
      median data i j k swaps
    else pure (j, swaps)
  if swaps = 0 then pure (j, sortedHint.increasingHint)
  else if swaps = 12 then pure (j, sortedHint.decreasingHint)
  else pure (j, sortedHint.unknownHint)

/-- The loop of reverseRange, `for i < j`, with an iteration budget. -/
def reverseLoop : Nat → Nat → Nat → Endpoints → Except String Endpoints
  | 0, _, _, _ => .error fuelOut
  | fuel + 1, i, j, data =>
    if i < j then do reverseLoop fuel (i + 1) (j - 1) (← data.Swap i j)
    else pure data

/-- Function reverseRange of the sort package. -/
def reverseRange (data : Endpoints) (a b : Nat) : Except String Endpoints :=
  reverseLoop (b - a + 1) a (b - 1) data

/-- The scan `for i < b && !data.Less(i, i-1) { i++ }` of partialInsertionSort,
with `n = b - i`. -/
def pisScan (data : Endpoints) : Nat → Nat → Except String Nat
  | 0, i => .ok i
  | n + 1, i => do
    if !(← data.Less i (i - 1)) then pisScan data n (i + 1) else pure i

/-- The loop `for j := i - 1; j >= 1; j--` of partialInsertionSort, shifting the
smaller element to the left. -/
def shiftLeft : Nat → Endpoints → Except String Endpoints
  | 0, data => .ok data
  | j + 1, data => do
    if !(← data.Less (j + 1) j) then pure data
    else shiftLeft j (← data.Swap (j + 1) j)

/-- The loop `for j := i + 1; j < b; j++` of partialInsertionSort, shifting the
greater element to the right, with `n = b - j`. -/
def shiftRight : Nat → Nat → Endpoints → Except String Endpoints
  | 0, _, data => .ok data
  | n + 1, j, data => do
    if !(← data.Less j (j - 1)) then pure data
    else shiftRight n (j + 1) (← data.Swap j (j - 1))

/-- The loop `for j := 0; j < maxSteps; j++` of partialInsertionSort, with
`n = maxSteps - j` iterations left. -/
def pisSteps (a b : Nat) : Nat → Nat → Endpoints → Except String (Endpoints × Bool)
  | 0, _, data => .ok (data, false)
  | n + 1, i, data => do
    let i ← pisScan data (b - i) i
    if i = b then pure (data, true)
    else if b - a < 50 then pure (data, false)
    else do
      let data ← data.Swap i (i - 1)
      let data ← if i - a ≥ 2 then shiftLeft (i - 1) data else pure data
      let data ← if b - i ≥ 2 then shiftRight (b - (i + 1)) (i + 1) data else pure data
      pisSteps a b n i data

/-- partialInsertionSort partially sorts a slice and reports whether the slice
is sorted at the end. -/
def partialInsertionSort (data : Endpoints) (a b : Nat) :
    Except String (Endpoints × Bool) :=
  pisSteps a b 5 (a + 1) data

/-- The scan `for i <= j && data.Less(i, a) { i++ }` of partition, with
`n = j + 1 - i`. -/
def scanUp (data : Endpoints) (a : Nat) : Nat → Nat → Except String Nat
  | 0, i => .ok i
  | n + 1, i => do
    if (← data.Less i a) then scanUp data a n (i + 1) else pure i

/-- The scan `for i <= j && !data.Less(j, a) { j-- }` of partition, with
`n = j + 1 - i`. -/
def scanDown (data : Endpoints) (a : Nat) : Nat → Nat → Except String Nat
  | 0, j => .ok j
  | n + 1, j => do
    if !(← data.Less j a) then scanDown data a n (j - 1) else pure j

/-- The main loop of partition, with an iteration budget. -/
def partitionLoop (a : Nat) : Nat → Nat → Nat → Endpoints → Except String (Endpoints × Nat)
  | 0, _, _, _ => .error fuelOut
  | fuel + 1, i, j, data => do
    let i ← scanUp data a (j + 1 - i) i
    let j ← scanDown data a (j + 1 - i) j
    if i > j then pure (data, j)
    else partitionLoop a fuel (i + 1) (j - 1) (← data.Swap i j)

/-- partition does one quicksort partition around `data[pivot]`; it returns the
new position of the pivot and whether the slice was already partitioned. -/
def partition (data : Endpoints) (a b pivot : Nat) :
    Except String (Endpoints × Nat × Bool) := do
  let data ← data.Swap a pivot
  let i := a + 1
  let j := b - 1
  let i ← scanUp data a (j + 1 - i) i
  let j ← scanDown data a (j + 1 - i) j
  if i > j then
    let data ← data.Swap j a
    pure (data, j, true)
  else do
    let data ← data.Swap i j
    let (data, j) ← partitionLoop a (b - a + 1) (i + 1) (j - 1) data
    let data ← data.Swap j a
    pure (data, j, false)

/-- The scan `for i <= j && !data.Less(a, i) { i++ }` of partitionEqual. -/
def scanUpEq (data : Endpoints) (a : Nat) : Nat → Nat → Except String Nat
  | 0, i => .ok i
  | n + 1, i => do
    if !(← data.Less a i) then scanUpEq data a n (i + 1) else pure i

/-- The scan `for i <= j && data.Less(a, j) { j-- }` of partitionEqual. -/
def scanDownEq (data : Endpoints) (a : Nat) : Nat → Nat → Except String Nat
  | 0, j => .ok j
  | n + 1, j => do
    if (← data.Less a j) then scanDownEq data a n (j - 1) else pure j

/-- The loop of partitionEqual, with an iteration budget. -/
def partitionEqualLoop (a : Nat) :
    Nat → Nat → Nat → Endpoints → Except String (Endpoints × Nat)
  | 0, _, _, _ => .error fuelOut
  | fuel + 1, i, j, data => do
    let i ← scanUpEq data a (j + 1 - i) i
    let j ← scanDownEq data a (j + 1 - i) j
    if i > j then pure (data, i)
    else partitionEqualLoop a fuel (i + 1) (j - 1) (← data.Swap i j)

/-- partitionEqual partitions `data[a:b]` into elements equal to `data[pivot]`
followed by elements greater than it. -/
def partitionEqual (data : Endpoints) (a b pivot : Nat) :
    Except String (Endpoints × Nat) := do
  let data ← data.Swap a pivot
  partitionEqualLoop a (b - a + 1) (a + 1) (b - 1) data

/-- pdqsort sorts `data[a:b]`. The `for` loop and the recursive call are one
recursion with a budget of iterations; `wasBalanced` and `wasPartitioned` are
the loop's two variables, both `true` on entry. -/
def pdqsort : Nat → Endpoints → Nat → Nat → Nat → Bool → Bool → Except String Endpoints
  | 0, _, _, _, _, _, _ => .error fuelOut
  | fuel + 1, data, a, b, limit, wasBalanced, wasPartitioned =>
    let length := b - a
    if length ≤ 12 then insertionSort data a b
    else if limit = 0 then heapSort data a b
    else do
      let (data, limit) ←
        (if !wasBalanced then do pure ((← breakPatterns data a b), limit - 1)
         else pure (data, limit))
      let (pivot, hint) ← choosePivot data a b
      let (data, pivot, hint) ←
        (if hint = sortedHint.decreasingHint then do
           pure ((← reverseRange data a b), (b - 1) - (pivot - a), sortedHint.increasingHint)
         else pure (data, pivot, hint))
      let (data, sorted) ←
        (if wasBalanced && wasPartitioned && hint = sortedHint.increasingHint then
           partialInsertionSort data a b
         else pure (data, false))
      if sorted then pure data
      else do
        let equal ← (if a > 0 then do pure (!(← data.Less (a - 1) pivot)) else pure false)
        if equal then do
          let (data, mid) ← partitionEqual data a b pivot
          pdqsort fuel data mid b limit wasBalanced wasPartitioned
        else do
          let (data, mid, alreadyPartitioned) ← partition data a b pivot
          let leftLen := mid - a
          let rightLen := b - mid
          let balanceThreshold := length / 8
          if leftLen < rightLen then do
            let data ← pdqsort fuel data a mid limit true true
            pdqsort fuel data (mid + 1) b limit (decide (leftLen ≥ balanceThreshold))
              alreadyPartitioned
          else do
            let data ← pdqsort fuel data (mid + 1) b limit true true
            pdqsort fuel data a mid limit (decide (rightLen ≥ balanceThreshold))
              alreadyPartitioned

/-- Go `sort.Sort(data)` for `data : Endpoints`, as called by
NewRESTRouterAndServer, NewBasicWebAppRouterAndServer and NewBasicWebAppServer. -/
def sort_Sort (data : Endpoints) : Except String Endpoints :=
  let n := data.Len
  if n ≤ 1 then pure data
  else
    let limit := bitsLen n
    pdqsort (n + 1) data 0 n limit true true

/-! ## net/http and context, as far as the middlewares use them -/

/-- A call received by an `http.ResponseWriter`: `w.Header().Set(key, value)`,
`w.WriteHeader(code)` or `w.Write(b)`. -/
inductive WriterCall where
  | setHeader (key value : String)
  | writeHeader (code : Nat)
  | write (b : String)
deriving DecidableEq, Repr

/-- An `http.ResponseWriter` is an interface; it is modelled by the calls it has
received so far, oldest first. -/
abbrev ResponseWriter := List WriterCall

/-- The part of `*http.Request` the middlewares read: the method, the header
(keys in canonical form), the remote address, and the context as the list of
its key/value pairs, the most recent first. -/
structure Request where
  Method : String
  Header : List (String × String)
  RemoteAddr : String
  Context : List (String × String)
deriving DecidableEq, Repr

/-- Go `r.Header.Get(key)`: the first value stored under `key`, or `""`. -/
def Request.HeaderGet (r : Request) (key : String) : String :=
  match r.Header.lookup key with
  | some v => v
  | none => ""

/-- Go `context.WithValue(ctx, key, val)`. -/
def WithValue (ctx : List (String × String)) (key val : String) : List (String × String) :=
  (key, val) :: ctx

/-- Go `ctx.Value(key)`: the value of the innermost binding of `key`. -/
def Value (ctx : List (String × String)) (key : String) : Option String :=
  ctx.lookup key

/-- Go `r.WithContext(ctx)`. -/
def Request.WithContext (r : Request) (ctx : List (String × String)) : Request :=
  { r with Context := ctx }

/-- An `http.Handler` (or `http.HandlerFunc`): it receives the writer and the
request and leaves the writer in a new state. -/
abbrev Handler := ResponseWriter → Request → ResponseWriter

/-- MiddlewareFunc of the middlewares package. -/
abbrev MiddlewareFunc := Handler → Handler

/-- Folding of ASCII letters to lower case; on ASCII strings this is Go's
`strings.ToLower`. -/
def asciiLower (s : String) : String := String.mk (s.data.map Char.toLower)

/-- The first occurrence of the byte `sep`: the text before it and the text
after it. -/
def cutFirst (sep : Char) : List Char → Option (List Char × List Char)
  | [] => none
  | c :: cs =>
    if c = sep then some ([], cs)
    else match cutFirst sep cs with
      | none => none
      | some (p, q) => some (c :: p, q)

/-- Go `strings.SplitN(s, sep, n)` for a one-byte separator and `n ≥ 0`: at most
`n` substrings, the last one being the unsplit remainder. -/
def SplitN (sep : Char) : Nat → List Char → List String
  | 0, _ => []
  | 1, s => [String.mk s]
  | n + 2, s =>
    match cutFirst sep s with
    | none => [String.mk s]
    | some (p, q) => String.mk p :: SplitN sep (n + 1) q

/-! ## middlewares/Allow.go -/

/-- Allow of the middlewares package. `strings.ToLower` is the parameter
`ToLower`, so that nothing below depends on how case is folded. -/
def Allow (ToLower : String → String) (next : Handler) (allowedMethod : String) : Handler :=
  fun w r =>
    if ToLower r.Method ≠ ToLower allowedMethod then
      let w := w ++ [WriterCall.setHeader "Content-Type" "text/plain"]
      let w := w ++ [WriterCall.writeHeader 405]
      let w := w ++ [WriterCall.write "method not allowed"]
      w
    else if r.Method = "OPTIONS" then w
    else next w r

/-! ## middlewares/CaptureAuth.go -/

/-- CaptureAuth of the middlewares package. The logger only receives a fixed
message; it is left out, and `onInvalidHeader` receives the writer. -/
def CaptureAuth (next : Handler) (onInvalidHeader : ResponseWriter → ResponseWriter) :
    Handler :=
  fun w r =>
    let authHeader := r.HeaderGet "Authorization"
    let auth := SplitN ' ' 2 authHeader.data
    if auth.length ≠ 2 ∨ auth.getD 0 "" ≠ "Bearer" then onInvalidHeader w
    else
      let token := auth.getD 1 ""
      let ctx := WithValue r.Context "authtoken" token
      next w (r.WithContext ctx)

/-! ## Server.go -/

/-- ServeMux of Server.go; `mux` is the wrapped `*http.ServeMux`, as the handler
it dispatches to. -/
structure ServeMux where
  middlewares : List MiddlewareFunc
  mux : Handler

/-- NewServeMux, around the given inner mux. -/
def NewServeMux (mux : Handler) : ServeMux :=
  { middlewares := [], mux := mux }

/-- ServeMux.ServeHTTP. -/
def ServeMux.ServeHTTP (sm : ServeMux) : Handler :=
  fun w r =>
    let handler : Handler := fun w r => sm.mux w r
    let handler := sm.middlewares.foldl (fun handler m => m handler) handler
    handler w r

/-- ServeMux.Use. -/
def ServeMux.Use (sm : ServeMux) (middlewares : List MiddlewareFunc) : ServeMux :=
  { sm with middlewares := sm.middlewares ++ middlewares }

/-! ## Inputs used in the examples -/

/-- A handler that writes its name and returns. -/
def mark (name : String) : Handler := fun w _ => w ++ [WriterCall.write name]

/-- A middleware that writes its name and then runs the wrapped handler. -/
def tag (name : String) : MiddlewareFunc :=
  fun next w r => next (w ++ [WriterCall.write name]) r

/-- A request with the given method and no header. -/
def methodRequest (method : String) : Request :=
  { Method := method, Header := [], RemoteAddr := "127.0.0.1", Context := [] }

/-- A GET request with the given Authorization header. -/
def authRequest (value : String) : Request :=
  { Method := "GET", Header := [("Authorization", value)], RemoteAddr := "127.0.0.1",
    Context := [] }

/-- A next handler that writes the token it finds in the request context. -/
def echoToken : Handler :=
  fun w r => w ++ [WriterCall.write ((Value r.Context "authtoken").getD "no token")]

/-- A failure callback that answers 400. -/
def reject : ResponseWriter → ResponseWriter := fun w => w ++ [WriterCall.writeHeader 400]

/-! ## Vocabulary of the theorems about the ordering -/

/-- The element at index `i` of a slice (a default endpoint outside the slice). -/
def nth (d : Endpoints) (i : Nat) : Endpoint := d.getD i default

/-- The slice with the elements at `i` and `j` exchanged: the value `Endpoints.Swap`
returns for indices inside the slice. -/
def swp (d : Endpoints) (i j : Nat) : Endpoints := (d.set i (nth d j)).set j (nth d i)

/-- The class of an endpoint: 0 for a static path, 1 for a dynamic one. -/
def cls (e : Endpoint) : Nat := if isDynamic e.Path then 1 else 0

/-- The relation `Endpoints.Less` decides between two endpoints with different
paths: a lower class, or the same class and a path at least as long. -/
def before (x y : Endpoint) : Prop :=
  cls x < cls y ∨ (cls x = cls y ∧ len y.Path ≤ len x.Path)

instance (x y : Endpoint) : Decidable (before x y) := by unfold before; infer_instance

/-- The change a sorting routine working on `data[a:b]` makes to the slice: the
result is a permutation, nothing outside `[a, b)` moves, and every element
inside comes from inside. -/
structure Step (a b : Nat) (d d' : Endpoints) : Prop where
  perm : d'.Perm d
  out : ∀ k, k < a ∨ b ≤ k → nth d' k = nth d k
  inn : ∀ k, a ≤ k → k < b → ∃ m, a ≤ m ∧ m < b ∧ nth d' k = nth d m

/-- The slice is ordered on `[a, b)`. -/
def SortedOn (d : Endpoints) (a b : Nat) : Prop :=
  ∀ p q, a ≤ p → p ≤ q → q < b → before (nth d p) (nth d q)

/-- In the heap stored at offset `first` with `hi` nodes, node `p` is not before
any of its children. -/
def Dom (d : Endpoints) (first hi p : Nat) : Prop :=
  ∀ c, (c = 2 * p + 1 ∨ c = 2 * p + 2) → c < hi →
    before (nth d (first + c)) (nth d (first + p))

/-- Every element to the left of `a` is strictly before every element of
`[a, b)`. -/
def Below (d : Endpoints) (a b : Nat) : Prop :=
  ∀ p q, p < a → a ≤ q → q < b → ¬ before (nth d q) (nth d p)

/-- The sort key of an endpoint: its class and the length of its path. -/
def routeKey (e : Endpoint) : Bool × Nat := (isDynamic e.Path, len e.Path)

/-- The order of the sort keys: static before dynamic, then longer before
shorter. -/
def keyLe (k1 k2 : Bool × Nat) : Prop :=
  (k1.1 = false ∧ k2.1 = true) ∨ (k1.1 = k2.1 ∧ k2.2 ≤ k1.2)

/-- A GET endpoint with the given path. -/
def ep (path : String) : Endpoint := { Path := path, Methods := ["GET"] }

/-- Twenty static endpoints with paths of one length, `"/b"` registered twice
(at indices 1 and 13). -/
def twentyRoutes : Endpoints :=
  ["/a", "/b", "/c", "/d", "/e", "/f", "/g", "/h", "/i", "/j", "/k", "/l", "/m", "/b", "/o",
    "/p", "/q", "/r", "/s", "/t"].map ep

deriving instance DecidableEq for Except

/-! ## Requests.go and middlewares/realIP.go -/

/-- RealIP of Requests.go. -/
def RealIP (r : Request) : String :=
  let result := r.RemoteAddr
  let xForwardedFor := r.HeaderGet "X-Forwarded-For"
  if xForwardedFor ≠ "" then xForwardedFor else result

/-- realIP of middlewares/realIP.go. -/
def realIP (r : Request) : String :=
  let result := r.RemoteAddr
  let xForwardedFor := r.HeaderGet "X-Forwarded-For"
  if xForwardedFor ≠ "" then xForwardedFor else result

/-! ## middlewares/CaptureIP.go -/

/-- The struct captureIP. -/
structure captureIP where
  handler : Handler

/-- captureIP.ServeHTTP. -/
def captureIP.ServeHTTP (c : captureIP) : Handler :=
  fun w r =>
    let ctx := WithValue r.Context "ip" (realIP r)
    let r := r.WithContext ctx
    c.handler w r

/-- CaptureIP of the middlewares package. -/
def CaptureIP : MiddlewareFunc :=
  fun next w r =>
    let handler : captureIP := { handler := next }
    handler.ServeHTTP w r

/-! ## middlewares/StatusRecorder.go and middlewares/RequestLogger.go -/

/-- The struct statusRecorder: the wrapped `http.ResponseWriter` and the recorded
status. -/
structure statusRecorder where
  ResponseWriter : nerdweb.ResponseWriter
  Status : Nat
deriving DecidableEq, Repr

/-- Go `sr.Header().Set(key, value)`: statusRecorder.Header returns the header of
the wrapped writer, so the `Set` is a call on the wrapped writer. -/
def statusRecorder.HeaderSet (sr : statusRecorder) (key value : String) : statusRecorder :=
  { sr with ResponseWriter := sr.ResponseWriter ++ [WriterCall.setHeader key value] }

/-- statusRecorder.Write. -/
def statusRecorder.Write (sr : statusRecorder) (b : String) : statusRecorder :=
  { sr with ResponseWriter := sr.ResponseWriter ++ [WriterCall.write b] }

/-- statusRecorder.WriteHeader. -/
def statusRecorder.WriteHeader (sr : statusRecorder) (code : Nat) : statusRecorder :=
  let sr := { sr with Status := code }
  { sr with ResponseWriter := sr.ResponseWriter ++ [WriterCall.writeHeader code] }

/-- One call made on the recorder by the handler it is passed to. -/
def statusRecorder.call (sr : statusRecorder) : WriterCall → statusRecorder
  | WriterCall.setHeader key value => sr.HeaderSet key value
  | WriterCall.writeHeader code => sr.WriteHeader code
  | WriterCall.write b => sr.Write b

/-- A sequence of calls made on the recorder, in order. -/
def statusRecorder.calls (sr : statusRecorder) (cs : List WriterCall) : statusRecorder :=
  cs.foldl statusRecorder.call sr

/-- The fields of the entry written by the request logger that the model keeps:
the caller IP, the method and the recorded status (the execution time and the
URL are left out). -/
structure LogEntry where
  ip : String
  method : String
  status : Nat
deriving DecidableEq, Repr

/-- requestLogger.ServeHTTP: the wrapped handler receives the recorder in place
of the writer; the result is the wrapped writer afterwards and the entry
logged. -/
def requestLogger.ServeHTTP (handler : statusRecorder → Request → statusRecorder)
    (w : ResponseWriter) (r : Request) : ResponseWriter × LogEntry :=
  let recorder : statusRecorder := { ResponseWriter := w, Status := 200 }
  let ip := realIP r
  let recorder := handler recorder r
  (recorder.ResponseWriter, { ip := ip, method := r.Method, status := recorder.Status })

/-- The codes of the WriteHeader calls of a sequence of calls, in order. -/
def writeHeaderCodes (cs : List WriterCall) : List Nat :=
  cs.filterMap (fun c => match c with
    | WriterCall.writeHeader code => some code
    | _ => none)

/-! ## middlewares/AccessControl.go -/

/-- The struct accessControl. -/
structure accessControl where
  handler : Handler
  allowOrigin : String
  allowMethods : String
  allowHeaders : String

/-- accessControl.ServeHTTP. -/
def accessControl.ServeHTTP (ac : accessControl) : Handler :=
  fun w r =>
    let w := w ++ [WriterCall.setHeader "Access-Control-Allow-Origin" ac.allowOrigin]
    let w := w ++ [WriterCall.setHeader "Access-Control-Allow-Methods" ac.allowMethods]
    let w := w ++ [WriterCall.setHeader "Access-Control-Allow-Headers" ac.allowHeaders]
    ac.handler w r

/-- AccessControl of the middlewares package. -/
def AccessControl (allowOrigin allowMethods allowHeaders : String) : MiddlewareFunc :=
  fun next w r =>
    let handler : accessControl :=
      { handler := next, allowOrigin := allowOrigin, allowMethods := allowMethods,
        allowHeaders := allowHeaders }
    handler.ServeHTTP w r

/-! ## What a client sees of a response -/

/-- The value of a response header: that of the last `Header().Set` for the
key. -/
def headerValue (w : ResponseWriter) (key : String) : Option String :=
  (w.filterMap (fun c => match c with
    | WriterCall.setHeader k v => if k = key then some v else none
    | _ => none)).getLast?

/-- The status code of a response on a writer that reports 200 when no status
was written explicitly: the code of the first WriteHeader call, else 200. -/
def statusCode (w : ResponseWriter) : Nat :=
  (writeHeaderCodes w).headD 200

/-- The body of a response: the written pieces, in order. -/
def body (w : ResponseWriter) : String :=
  String.join (w.filterMap (fun c => match c with
    | WriterCall.write b => some b
    | _ => none))

/-! ## encoding/json, for the struct that WriteJSON encodes itself -/

/-- The digit of `n < 16` in the table `hex` of encoding/json. -/
def hexDigit (n : Nat) : Char := "0123456789abcdef".toList.getD n '0'

/-- What `json.Marshal` writes for one character of a string (encoding/json of
Go 1.22, HTML escaping on as Marshal has it): a backslash before a backslash
(92) and a double quote (34); the short escapes of backspace, form feed, line
feed, carriage return and tab; `\u00XX` for the other control characters and
for `<`, `>` and `&`; `\u2028` and `\u2029` for the two separators; any other
character as it is. -/
def jsonChar (c : Char) : String :=
  let b := c.toNat
  if b = 92 ∨ b = 34 then String.mk [Char.ofNat 92, c]
  else if b = 8 then "\\b"
  else if b = 12 then "\\f"
  else if b = 10 then "\\n"
  else if b = 13 then "\\r"
  else if b = 9 then "\\t"
  else if b < 32 ∨ b = 60 ∨ b = 62 ∨ b = 38 then
    "\\u00" ++ String.mk [hexDigit (b / 16), hexDigit (b % 16)]
  else if b = 0x2028 ∨ b = 0x2029 then "\\u202" ++ String.mk [hexDigit (b % 16)]
  else String.singleton c

/-- A Go string as `json.Marshal` writes it: its characters, encoded, between
double quotes. -/
def jsonString (s : String) : String :=
  "\"" ++ String.join (s.toList.map jsonChar) ++ "\""

/-- The anonymous struct that WriteJSON encodes when the value has no encoding;
its `json` tags name the fields `message` and `suggestion`. -/
structure errorMessage where
  Message : String
  Suggestion : String

/-- The bytes of `json.Marshal` for that struct: an object with the two fields
in the order of their declaration, under the names of their tags. Two string
fields always encode, so the error WriteJSON discards there is nil. -/
def errorMessage.Marshal (v : errorMessage) : String :=
  "\x7b\"message\":" ++ jsonString v.Message ++ ",\"suggestion\":" ++ jsonString v.Suggestion
    ++ "\x7d"

/-! ## Responses.go -/

/-- WriteJSON of Responses.go. `json.Marshal` of the value is the parameter
`Marshal`, from the value to its encoding or an error; the logger only receives
the error. -/
def WriteJSON {α : Type} (Marshal : α → Except String String) (w : ResponseWriter)
    (status : Nat) (value : α) : ResponseWriter :=
  let w := w ++ [WriterCall.setHeader "Content-Type" "application/json"]
  match Marshal value with
  | Except.error _ =>
    let b := errorMessage.Marshal
      { Message := "Error marshaling value for writing",
        Suggestion := "See error log for more information" }
    let w := w ++ [WriterCall.writeHeader 500]
    w ++ [WriterCall.write b]
  | Except.ok b =>
    let w := if status > 299 then w ++ [WriterCall.writeHeader status] else w
    w ++ [WriterCall.write b]

/-- WriteString of Responses.go. -/
def WriteString (w : ResponseWriter) (status : Nat) (value : String) : ResponseWriter :=
  let w := w ++ [WriterCall.setHeader "Content-Type" "text/plain"]
  let w := w ++ [WriterCall.writeHeader status]
  w ++ [WriterCall.write value]

/-- The values of the examples: a struct with a name and an age, or a function. -/
inductive SampleValue where
  | sampleStruct (Name : String) (Age : Nat)
  | func
deriving DecidableEq, Repr

/-- The result of `json.Marshal` on the values of the examples: a function has
no encoding. -/
def sampleMarshal : SampleValue → Except String String
  | SampleValue.sampleStruct name age =>
    Except.ok ("\x7b\"name\":\"" ++ name ++ "\",\"age\":" ++ toString age ++ "\x7d")
  | SampleValue.func => Except.error "json: unsupported type: func() string"

/-- A GET request from `127.0.0.1` with the given X-Forwarded-For header. -/
def forwardedRequest (value : String) : Request :=
  { Method := "GET", Header := [("X-Forwarded-For", value)], RemoteAddr := "127.0.0.1",
    Context := [] }

/-! ## Paging.go -/

/-- The value of a Go `int` (64 bits, two's complement) holding the integer `x`
after wrap-around. -/
def wrapInt (x : Int) : Int := (x + 2 ^ 63) % 2 ^ 64 - 2 ^ 63

/-- HasNextPage of Paging.go. -/
def HasNextPage (page pageSize recordCount : Int) : Bool :=
  decide (wrapInt (wrapInt (page * pageSize) + pageSize) < recordCount)

/-! # Theorems -/

/-! ## Theorems: the sort package and Endpoint.go -/

theorem nth_eq_of_getElem? {d : Endpoints} {i : Nat} {x : Endpoint} (h : d[i]? = some x) : nth d i = x := by
  simp [nth, List.getD_eq_getElem?_getD, h]

theorem getElem?_eq_nth {d : Endpoints} {i : Nat} (h : i < d.length) : d[i]? = some (nth d i) := by
  simp [nth, List.getD_eq_getElem?_getD, List.getElem?_eq_getElem h]

theorem length_swp (d : Endpoints) (i j : Nat) : (swp d i j).length = d.length := by
  simp [swp]

theorem nth_swp {d : Endpoints} {i j : Nat} (hi : i < d.length) (hj : j < d.length) (k : Nat) :
    nth (swp d i j) k = if k = j then nth d i else if k = i then nth d j else nth d k := by
  simp only [nth, swp, List.getD_eq_getElem?_getD, List.getElem?_set, List.length_set]
  by_cases h1 : j = k
  · subst h1; simp [hj]
  · by_cases h2 : i = k
    · subst h2; simp [h1, hi, Ne.symm h1]
    · simp [h1, h2, Ne.symm h1, Ne.symm h2]

theorem Swap_eq {d : Endpoints} {i j : Nat} (hi : i < d.length) (hj : j < d.length) :
    d.Swap i j = .ok (swp d i j) := by
  simp [Endpoints.Swap, getElem?_eq_nth hi, getElem?_eq_nth hj, swp]

theorem Less_eq {d : Endpoints} (hn : (d.map Endpoint.Path).Nodup) {i j : Nat}
    (hi : i < d.length) (hj : j < d.length) (hij : i ≠ j) :
    d.Less i j = .ok (decide (before (nth d i) (nth d j))) := by
  have hp : (nth d i).Path ≠ (nth d j).Path := by
    intro h
    apply hij
    have hi' : i < (d.map Endpoint.Path).length := by simpa using hi
    have hj' : j < (d.map Endpoint.Path).length := by simpa using hj
    have e1 := getElem?_eq_nth hi
    have e2 := getElem?_eq_nth hj
    rw [List.getElem?_eq_getElem hi] at e1
    rw [List.getElem?_eq_getElem hj] at e2
    simp only [Option.some.injEq] at e1 e2
    have key : (d.map Endpoint.Path)[i] = (d.map Endpoint.Path)[j] := by
      simp [e1, e2, h]
    exact (List.Nodup.getElem_inj_iff hn).mp key
  simp only [Endpoints.Less, getElem?_eq_nth hi, getElem?_eq_nth hj, before, cls]
  rcases Bool.eq_false_or_eq_true (isDynamic (nth d i).Path) with h1 | h1 <;>
  rcases Bool.eq_false_or_eq_true (isDynamic (nth d j).Path) with h2 | h2 <;>
  simp only [h1, h2] <;> simp [hp]
  all_goals
    by_cases h3 : len (nth d i).Path = len (nth d j).Path
    · simp [h3]
    · simp [h3]; omega

theorem set_perm_head (x : Endpoint) {xs : Endpoints} {j : Nat} (hj : j < xs.length) :
    (nth xs j :: xs.set j x).Perm (x :: xs) := by
  induction xs generalizing j with
  | nil => simp at hj
  | cons z zs ih =>
    cases j with
    | zero => simpa [nth] using List.Perm.swap x z zs
    | succ j =>
      have hj' : j < zs.length := by simpa using hj
      have h1 : (nth zs j :: z :: zs.set j x).Perm (z :: nth zs j :: zs.set j x) :=
        List.Perm.swap _ _ _
      have h2 : (z :: nth zs j :: zs.set j x).Perm (z :: x :: zs) := (ih hj').cons z
      have h3 : (z :: x :: zs).Perm (x :: z :: zs) := List.Perm.swap _ _ _
      simpa [nth] using h1.trans (h2.trans h3)

theorem swp_perm {d : Endpoints} {i j : Nat} (hi : i < d.length) (hj : j < d.length) :
    (swp d i j).Perm d := by
  induction d generalizing i j with
  | nil => simp at hi
  | cons x xs ih =>
    cases i with
    | zero =>
      cases j with
      | zero => simp [swp, nth]
      | succ j =>
        have hj' : j < xs.length := by simpa using hj
        simpa [swp, nth] using set_perm_head x hj'
    | succ i =>
      have hi' : i < xs.length := by simpa using hi
      cases j with
      | zero => simpa [swp, nth] using set_perm_head x hi'
      | succ j =>
        have hj' : j < xs.length := by simpa using hj
        simpa [swp, nth] using ih hi' hj'

theorem Step.refl (a b : Nat) (d : Endpoints) : Step a b d d :=
  ⟨List.Perm.refl d, fun _ _ => rfl, fun k h1 h2 => ⟨k, h1, h2, rfl⟩⟩

theorem Step.trans {a b : Nat} {d1 d2 d3 : Endpoints} (h1 : Step a b d1 d2) (h2 : Step a b d2 d3) :
    Step a b d1 d3 := by
  refine ⟨h2.perm.trans h1.perm, fun k hk => (h2.out k hk).trans (h1.out k hk), ?_⟩
  intro k hk1 hk2
  obtain ⟨m, hm1, hm2, e⟩ := h2.inn k hk1 hk2
  obtain ⟨m', hm1', hm2', e'⟩ := h1.inn m hm1 hm2
  exact ⟨m', hm1', hm2', e.trans e'⟩

theorem Step.mono {a b a' b' : Nat} {d d' : Endpoints} (h : Step a b d d') (ha : a' ≤ a) (hb : b ≤ b') :
    Step a' b' d d' := by
  refine ⟨h.perm, fun k hk => h.out k (by omega), ?_⟩
  intro k hk1 hk2
  by_cases hin : a ≤ k ∧ k < b
  · obtain ⟨m, hm1, hm2, e⟩ := h.inn k hin.1 hin.2
    exact ⟨m, by omega, by omega, e⟩
  · exact ⟨k, hk1, hk2, h.out k (by omega)⟩

theorem Step.length {a b : Nat} {d d' : Endpoints} (h : Step a b d d') : d'.length = d.length :=
  h.perm.length_eq

theorem Step.nodup {a b : Nat} {d d' : Endpoints} (h : Step a b d d')
    (hn : (d.map Endpoint.Path).Nodup) : (d'.map Endpoint.Path).Nodup :=
  ((h.perm.map Endpoint.Path).nodup_iff).mpr hn

theorem Step_swp {a b : Nat} {d : Endpoints} {i j : Nat} (hi : i < b) (hj : j < b) (hai : a ≤ i)
    (haj : a ≤ j) (hb : b ≤ d.length) : Step a b d (swp d i j) := by
  have hi' : i < d.length := by omega
  have hj' : j < d.length := by omega
  refine ⟨swp_perm hi' hj', ?_, ?_⟩
  · intro k hk
    rw [nth_swp hi' hj', if_neg (by omega), if_neg (by omega)]
  · intro k hk1 hk2
    rw [nth_swp hi' hj']
    by_cases h1 : k = j
    · exact ⟨i, hai, hi, by rw [if_pos h1]⟩
    · by_cases h2 : k = i
      · exact ⟨j, haj, hj, by rw [if_neg h1, if_pos h2]⟩
      · exact ⟨k, hk1, hk2, by rw [if_neg h1, if_neg h2]⟩

theorem ok_bind {α β : Type} (x : α) (f : α → Except String β) :
    (Except.ok x >>= f) = f x := rfl

theorem before_refl (x : Endpoint) : before x x := by
  simp [before]

theorem before_trans {x y z : Endpoint} (h1 : before x y) (h2 : before y z) : before x z := by
  simp only [before] at *
  omega

theorem before_total (x y : Endpoint) : before x y ∨ before y x := by
  simp only [before]
  omega

theorem before_of_not {x y : Endpoint} (h : ¬ before x y) : before y x :=
  (before_total x y).resolve_left h

theorem insertionInner_spec (a i : Nat) : ∀ (j : Nat) (d : Endpoints),
    (d.map Endpoint.Path).Nodup → a ≤ j → j ≤ i → i < d.length →
    (∀ p q, a ≤ p → p < q → q ≤ i → p ≠ j → q ≠ j → before (nth d p) (nth d q)) →
    (∀ q, j < q → q ≤ i → before (nth d j) (nth d q)) →
    ∃ d', insertionInner a j d = .ok d' ∧ Step a (i + 1) d d' ∧ SortedOn d' a (i + 1) := by
  intro j
  induction j with
  | zero =>
    intro d _ ha _ _ H1 H2
    refine ⟨d, rfl, Step.refl _ _ _, ?_⟩
    intro p q hp hpq hq
    rcases Nat.eq_or_lt_of_le hpq with h | h
    · subst h; exact before_refl _
    · by_cases hp0 : p = 0
      · subst hp0; exact H2 q h (by omega)
      · exact H1 p q hp h (by omega) hp0 (by omega)
  | succ j ih =>
    intro d hn ha hji hi H1 H2
    have hj1 : j + 1 < d.length := by omega
    have hj0 : j < d.length := by omega
    simp only [insertionInner]
    by_cases haj : a < j + 1
    · rw [if_pos haj, Less_eq hn hj1 hj0 (by omega), ok_bind]
      by_cases hb : before (nth d (j + 1)) (nth d j)
      · simp only [hb, decide_True, if_true]
        rw [Swap_eq hj1 hj0, ok_bind]
        have hst : Step a (i + 1) d (swp d (j + 1) j) :=
          Step_swp (by omega) (by omega) (by omega) (by omega) (by omega)
        have hnth := fun k => nth_swp hj1 hj0 k
        obtain ⟨d', e, st, so⟩ := ih (swp d (j + 1) j) (hst.nodup hn) (by omega) (by omega)
          (by rw [hst.length]; exact hi)
          (by
            intro p q hp hpq hq hpj hqj
            rw [hnth p, hnth q, if_neg hpj, if_neg hqj]
            by_cases h1 : p = j + 1
            · rw [if_pos h1, if_neg (by omega)]
              exact H1 j q (by omega) (by omega) hq (by omega) (by omega)
            · rw [if_neg h1]
              by_cases h2 : q = j + 1
              · rw [if_pos h2]
                exact H1 p j hp (by omega) (by omega) h1 (by omega)
              · rw [if_neg h2]
                exact H1 p q hp hpq hq h1 h2)
          (by
            intro q hjq hq
            rw [hnth j, hnth q, if_pos rfl, if_neg (by omega)]
            by_cases h2 : q = j + 1
            · rw [if_pos h2]; exact hb
            · rw [if_neg h2]; exact H2 q (by omega) hq)
        exact ⟨d', e, hst.trans st, so⟩
      · simp only [hb, decide_False]
        refine ⟨d, rfl, Step.refl _ _ _, ?_⟩
        have hb' := before_of_not hb
        intro p q hp hpq hq
        rcases Nat.eq_or_lt_of_le hpq with h | h
        · subst h; exact before_refl _
        · by_cases h1 : p = j + 1
          · subst h1; exact H2 q h (by omega)
          · by_cases h2 : q = j + 1
            · subst h2
              by_cases h3 : p = j
              · subst h3; exact hb'
              · exact before_trans (H1 p j hp (by omega) (by omega) h1 (by omega)) hb'
            · exact H1 p q hp h (by omega) h1 h2
    · rw [if_neg haj]
      refine ⟨d, rfl, Step.refl _ _ _, ?_⟩
      intro p q hp hpq hq
      rcases Nat.eq_or_lt_of_le hpq with h | h
      · subst h; exact before_refl _
      · by_cases h1 : p = j + 1
        · subst h1; exact H2 q h (by omega)
        · exact H1 p q hp h (by omega) h1 (by omega)

theorem insertionOuter_spec (a : Nat) : ∀ (n i : Nat) (d : Endpoints),
    (d.map Endpoint.Path).Nodup → a ≤ i → i + n ≤ d.length → SortedOn d a i →
    ∃ d', insertionOuter a n i d = .ok d' ∧ Step a (i + n) d d' ∧ SortedOn d' a (i + n) := by
  intro n
  induction n with
  | zero =>
    intro i d _ _ _ hs
    exact ⟨d, rfl, Step.refl _ _ _, hs⟩
  | succ n ih =>
    intro i d hn ha hlen hs
    simp only [insertionOuter]
    obtain ⟨d1, e1, st1, so1⟩ := insertionInner_spec a i i d hn ha (Nat.le_refl _) (by omega)
      (fun p q hp hpq hq _ hqi => hs p q hp (by omega) (by omega))
      (fun q h1 h2 => by omega)
    rw [e1, ok_bind]
    obtain ⟨d2, e2, st2, so2⟩ := ih (i + 1) d1 (st1.nodup hn) (by omega)
      (by rw [st1.length]; omega) so1
    refine ⟨d2, e2, ?_, ?_⟩
    · have := (st1.mono (Nat.le_refl a) (by omega : i + 1 ≤ i + (n + 1))).trans
        (by simpa [Nat.add_assoc, Nat.add_comm 1 n] using st2)
      exact this
    · simpa [Nat.add_assoc, Nat.add_comm 1 n] using so2

theorem insertionSort_spec (d : Endpoints) (a b : Nat) (hn : (d.map Endpoint.Path).Nodup)
    (hab : a ≤ b) (hb : b ≤ d.length) :
    ∃ d', insertionSort d a b = .ok d' ∧ Step a b d d' ∧ SortedOn d' a b := by
  rcases Nat.eq_or_lt_of_le hab with h | h
  · subst h
    refine ⟨d, by simp [insertionSort, insertionOuter], Step.refl _ _ _, ?_⟩
    intro p q hp hpq hq
    omega
  · obtain ⟨d', e, st, so⟩ := insertionOuter_spec a (b - (a + 1)) (a + 1) d hn (by omega)
      (by omega) (by
        intro p q hp hpq hq
        have : p = q := by omega
        subst this
        exact before_refl _)
    have hk : a + 1 + (b - (a + 1)) = b := by omega
    rw [hk] at st so
    exact ⟨d', e, st, so⟩

theorem siftDownLoop_spec (hi first lo : Nat) : ∀ (fuel r : Nat) (d : Endpoints),
    (d.map Endpoint.Path).Nodup → first + hi ≤ d.length → lo ≤ r → r ≤ hi → hi < fuel + r →
    (∀ p, lo ≤ p → p ≠ r → Dom d first hi p) →
    (∀ p, lo ≤ p → (r = 2 * p + 1 ∨ r = 2 * p + 2) → ∀ c, (c = 2 * r + 1 ∨ c = 2 * r + 2) →
      c < hi → before (nth d (first + c)) (nth d (first + p))) →
    ∃ d', siftDownLoop hi first fuel r d = .ok d' ∧ Step first (first + hi) d d'
      ∧ ∀ p, lo ≤ p → Dom d' first hi p := by
  intro fuel
  induction fuel with
  | zero => intro r d _ _ _ h1 h2; omega
  | succ fuel ih =>
    intro r d hn hlen hlo hr hfuel H1 H2
    simp only [siftDownLoop]
    by_cases hc : 2 * r + 1 ≥ hi
    · rw [if_pos hc]
      refine ⟨d, rfl, Step.refl _ _ _, ?_⟩
      intro p hp
      by_cases hpr : p = r
      · subst hpr
        intro c hc1 hc2
        omega
      · exact H1 p hp hpr
    · rw [if_neg hc]
      -- the continuation, for the chosen child
      have cont : ∀ c, (c = 2 * r + 1 ∨ c = 2 * r + 2) → c < hi →
          (∀ c', (c' = 2 * r + 1 ∨ c' = 2 * r + 2) → c' < hi →
            before (nth d (first + c')) (nth d (first + c))) →
          ∃ d', (do
              if !(← d.Less (first + r) (first + c)) then pure d
              else siftDownLoop hi first fuel c (← d.Swap (first + r) (first + c)))
                = .ok d' ∧ Step first (first + hi) d d' ∧ ∀ p, lo ≤ p → Dom d' first hi p := by
        intro c hc1 hc2 hmax
        rw [Less_eq hn (by omega) (by omega) (by omega), ok_bind]
        by_cases hb : before (nth d (first + r)) (nth d (first + c))
        · simp only [hb, decide_True, Bool.not_true, Bool.false_eq_true, if_false]
          have hi1 : first + r < d.length := by omega
          have hi2 : first + c < d.length := by omega
          rw [Swap_eq hi1 hi2, ok_bind]
          have hst : Step first (first + hi) d (swp d (first + r) (first + c)) :=
            Step_swp (by omega) (by omega) (by omega) (by omega) hlen
          have hnth := fun k => nth_swp hi1 hi2 (first + k)
          obtain ⟨d', e, st, hd⟩ := ih c (swp d (first + r) (first + c)) (hst.nodup hn)
            (by rw [hst.length]; exact hlen) (by omega) (by omega) (by omega)
            (by
              intro p hp hpc c' hc1' hc2'
              rw [hnth c', hnth p]
              rw [if_neg (by omega : ¬ first + p = first + c)]
              by_cases hpr : p = r
              · subst hpr
                rw [if_pos rfl, if_neg (by omega : ¬ first + c' = first + p)]
                by_cases hcc : c' = c
                · subst hcc; rw [if_pos rfl]; exact hb
                · rw [if_neg (by omega : ¬ first + c' = first + c)]
                  exact hmax c' hc1' hc2'
              · rw [if_neg (by omega : ¬ first + p = first + r)]
                rw [if_neg (by omega : ¬ first + c' = first + c)]
                by_cases hcr : c' = r
                · subst hcr
                  rw [if_pos rfl]
                  exact H2 p hp hc1' c hc1 hc2
                · rw [if_neg (by omega : ¬ first + c' = first + r)]
                  exact H1 p hp hpr c' hc1' hc2')
            (by
              intro p hp hcp c' hc1' hc2'
              have hpr : p = r := by omega
              subst hpr
              rw [hnth c', hnth p, if_neg (by omega : ¬ first + c' = first + c),
                if_neg (by omega : ¬ first + c' = first + p),
                if_neg (by omega : ¬ first + p = first + c), if_pos rfl]
              exact H1 c (by omega) (by omega) c' hc1' hc2')
          exact ⟨d', e, hst.trans st, hd⟩
        · simp only [hb, decide_False, Bool.not_false, if_true]
          refine ⟨d, rfl, Step.refl _ _ _, ?_⟩
          intro p hp
          by_cases hpr : p = r
          · subst hpr
            intro c' hc1' hc2'
            exact before_trans (hmax c' hc1' hc2') (before_of_not hb)
          · exact H1 p hp hpr
      by_cases h1 : 2 * r + 1 + 1 < hi
      · rw [if_pos h1, Less_eq hn (by omega) (by omega) (by omega), ok_bind]
        by_cases hb : before (nth d (first + (2 * r + 1))) (nth d (first + (2 * r + 1) + 1))
        · simp only [hb, decide_True, if_true]
          apply cont (2 * r + 1 + 1) (by omega) h1
          intro c' hc1' hc2'
          rcases hc1' with h | h
          · subst h; exact hb
          · subst h; exact before_refl _
        · simp only [hb, decide_False, Bool.false_eq_true, if_false]
          apply cont (2 * r + 1) (by omega) (by omega)
          intro c' hc1' hc2'
          rcases hc1' with h | h
          · subst h; exact before_refl _
          · subst h; exact before_of_not hb
      · rw [if_neg h1]
        simp only [pure, Except.pure, ok_bind, Bool.false_eq_true, if_false]
        apply cont (2 * r + 1) (by omega) (by omega)
        intro c' hc1' hc2'
        rcases hc1' with h | h
        · subst h; exact before_refl _
        · omega

theorem siftDown_spec (d : Endpoints) (lo hi first : Nat) (hn : (d.map Endpoint.Path).Nodup)
    (hlen : first + hi ≤ d.length) (hlo : lo ≤ hi)
    (H : ∀ p, lo < p → Dom d first hi p) :
    ∃ d', siftDown d lo hi first = .ok d' ∧ Step first (first + hi) d d'
      ∧ ∀ p, lo ≤ p → Dom d' first hi p := by
  apply siftDownLoop_spec hi first lo (hi + 1) lo d hn hlen (Nat.le_refl _) hlo (by omega)
  · intro p hp hpr
    exact H p (by omega)
  · intro p hp hc
    omega

theorem heapBuild_spec (hi first : Nat) : ∀ (n : Nat) (d : Endpoints),
    (d.map Endpoint.Path).Nodup → first + hi ≤ d.length → n ≤ hi + 1 →
    (∀ p, n ≤ p → Dom d first hi p) →
    ∃ d', heapBuild hi first n d = .ok d' ∧ Step first (first + hi) d d'
      ∧ ∀ p, Dom d' first hi p := by
  intro n
  induction n with
  | zero =>
    intro d _ _ _ H
    exact ⟨d, rfl, Step.refl _ _ _, fun p => H p (Nat.zero_le _)⟩
  | succ i ih =>
    intro d hn hlen hi' H
    simp only [heapBuild]
    obtain ⟨d1, e1, st1, h1⟩ := siftDown_spec d i hi first hn hlen (by omega)
      (fun p hp => H p (by omega))
    rw [e1, ok_bind]
    obtain ⟨d2, e2, st2, h2⟩ := ih d1 (st1.nodup hn) (by rw [st1.length]; exact hlen)
      (by omega) h1
    exact ⟨d2, e2, st1.trans st2, h2⟩

theorem heap_root_max (d : Endpoints) (first n : Nat) (H : ∀ p, Dom d first n p) :
    ∀ c, c < n → before (nth d (first + c)) (nth d (first + 0)) := by
  intro c
  induction c using Nat.strong_induction_on with
  | _ c ih =>
    intro hc
    by_cases h0 : c = 0
    · subst h0; exact before_refl _
    · have hp : (c - 1) / 2 < c := by omega
      have h1 := H ((c - 1) / 2) c (by omega) hc
      exact before_trans h1 (ih _ hp (by omega))

theorem heapPop_spec (first hi : Nat) : ∀ (n : Nat) (d : Endpoints),
    (d.map Endpoint.Path).Nodup → first + hi ≤ d.length → n ≤ hi →
    (∀ p, Dom d first n p) → SortedOn d (first + n) (first + hi) →
    (∀ p q, p < n → n ≤ q → q < hi → before (nth d (first + p)) (nth d (first + q))) →
    ∃ d', heapPop first n d = .ok d' ∧ Step first (first + hi) d d'
      ∧ SortedOn d' first (first + hi) := by
  intro n
  induction n with
  | zero =>
    intro d _ _ _ _ hs _
    exact ⟨d, rfl, Step.refl _ _ _, by simpa using hs⟩
  | succ i ih =>
    intro d hn hlen hle H hs hx
    simp only [heapPop]
    have hi1 : first < d.length := by omega
    have hi2 : first + i < d.length := by omega
    rw [Swap_eq hi1 hi2, ok_bind]
    have hst : Step first (first + hi) d (swp d first (first + i)) :=
      Step_swp (by omega) (by omega) (by omega) (by omega) hlen
    have hnth := fun k => nth_swp hi1 hi2 (first + k)
    have hroot := heap_root_max d first (i + 1) H
    obtain ⟨d2, e2, st2, h2⟩ := siftDown_spec (swp d first (first + i)) 0 i first
      (hst.nodup hn) (by rw [hst.length]; omega) (Nat.zero_le _)
      (by
        intro p hp c hc1 hc2
        rw [hnth c, hnth p, if_neg (by omega : ¬ first + c = first + i),
          if_neg (by omega : ¬ first + c = first), if_neg (by omega : ¬ first + p = first + i),
          if_neg (by omega : ¬ first + p = first)]
        exact H p c hc1 (by omega))
    rw [e2, ok_bind]
    have hout : ∀ k, i ≤ k → nth d2 (first + k) = nth (swp d first (first + i)) (first + k) :=
      fun k hk => st2.out (first + k) (by omega)
    have hinn : ∀ k, k < i → ∃ m, m < i + 1 ∧ nth d2 (first + k) = nth d (first + m) := by
      intro k hk
      obtain ⟨m, hm1, hm2, e⟩ := st2.inn (first + k) (by omega) (by omega)
      have hm : m = first + (m - first) := by omega
      rw [hm, hnth (m - first)] at e
      by_cases h1 : first + (m - first) = first + i
      · omega
      · rw [if_neg h1] at e
        by_cases h2 : first + (m - first) = first
        · rw [if_pos h2] at e
          exact ⟨i, by omega, e⟩
        · rw [if_neg h2] at e
          exact ⟨m - first, by omega, e⟩
    have hat : nth d2 (first + i) = nth d (first + 0) := by
      rw [hout i (Nat.le_refl _), hnth i, if_pos rfl]
      rfl
    have hafter : ∀ k, i < k → nth d2 (first + k) = nth d (first + k) := by
      intro k hk
      rw [hout k (by omega), hnth k, if_neg (by omega), if_neg (by omega)]
    obtain ⟨d3, e3, st3, so3⟩ := ih d2 ((hst.trans (st2.mono (Nat.le_refl _) (by omega))).nodup hn)
      (by rw [st2.length, hst.length]; exact hlen) (by omega) (fun p => h2 p (Nat.zero_le _))
      (by
        intro p q hp hpq hq
        have hp' : p = first + (p - first) := by omega
        have hq' : q = first + (q - first) := by omega
        rw [hp', hq']
        by_cases hpi : p - first = i
        · rw [hpi, hat]
          by_cases hqi : q - first = i
          · rw [hqi, hat]; exact before_refl _
          · rw [hafter _ (by omega)]
            exact hx 0 (q - first) (by omega) (by omega) (by omega)
        · rw [hafter _ (by omega), hafter _ (by omega)]
          exact hs _ _ (by omega) (by omega) (by omega))
      (by
        intro p q hp hpq hq
        obtain ⟨m, hm, e⟩ := hinn p hp
        rw [e]
        by_cases hqi : q = i
        · rw [hqi, hat]
          exact hroot m hm
        · rw [hafter q (by omega)]
          exact hx m q hm (by omega) hq)
    exact ⟨d3, e3, hst.trans ((st2.mono (Nat.le_refl _) (by omega)).trans st3), so3⟩

theorem heapSort_spec (d : Endpoints) (a b : Nat) (hn : (d.map Endpoint.Path).Nodup)
    (hab : a ≤ b) (hb : b ≤ d.length) :
    ∃ d', heapSort d a b = .ok d' ∧ Step a b d d' ∧ SortedOn d' a b := by
  simp only [heapSort]
  have hk : a + (b - a) = b := by omega
  obtain ⟨d1, e1, st1, h1⟩ := heapBuild_spec (b - a) a ((b - a - 1) / 2 + 1) d hn (by omega)
    (by omega) (by
      intro p hp c hc1 hc2
      omega)
  rw [e1, ok_bind]
  obtain ⟨d2, e2, st2, so2⟩ := heapPop_spec a (b - a) (b - a) d1 (st1.nodup hn)
    (by rw [st1.length]; omega) (Nat.le_refl _) h1
    (by intro p q hp hpq hq; omega)
    (by intro p q hp hpq hq; omega)
  rw [hk] at st1 st2 so2
  exact ⟨d2, e2, st1.trans st2, so2⟩

theorem scanUp_spec (d : Endpoints) (a : Nat) (hn : (d.map Endpoint.Path).Nodup)
    (ha : a < d.length) : ∀ (n i : Nat), a < i → i + n ≤ d.length →
    ∃ i', scanUp d a n i = .ok i' ∧ i ≤ i' ∧ i' ≤ i + n
      ∧ (∀ k, i ≤ k → k < i' → before (nth d k) (nth d a))
      ∧ (i' < i + n → ¬ before (nth d i') (nth d a)) := by
  intro n
  induction n with
  | zero =>
    intro i _ _
    exact ⟨i, rfl, Nat.le_refl _, Nat.le_refl _, fun k h1 h2 => by omega, fun h => by omega⟩
  | succ n ih =>
    intro i hai hlen
    simp only [scanUp]
    rw [Less_eq hn (by omega) ha (by omega), ok_bind]
    by_cases hb : before (nth d i) (nth d a)
    · simp only [hb, decide_True, if_true]
      obtain ⟨i', e, h1, h2, h3, h4⟩ := ih (i + 1) (by omega) (by omega)
      refine ⟨i', e, by omega, by omega, ?_, fun h => h4 (by omega)⟩
      intro k hk1 hk2
      by_cases hki : k = i
      · subst hki; exact hb
      · exact h3 k (by omega) hk2
    · simp only [hb, decide_False, Bool.false_eq_true, if_false]
      exact ⟨i, rfl, Nat.le_refl _, by omega, fun k h1 h2 => by omega, fun _ => hb⟩

theorem scanDown_spec (d : Endpoints) (a : Nat) (hn : (d.map Endpoint.Path).Nodup) :
    ∀ (n j : Nat), j < d.length → a + n ≤ j →
    ∃ j', scanDown d a n j = .ok j' ∧ j' ≤ j ∧ j ≤ j' + n
      ∧ (∀ k, j' < k → k ≤ j → ¬ before (nth d k) (nth d a))
      ∧ (j < j' + n → before (nth d j') (nth d a)) := by
  intro n
  induction n with
  | zero =>
    intro j _ _
    exact ⟨j, rfl, Nat.le_refl _, Nat.le_refl _, fun k h1 h2 => by omega, fun h => by omega⟩
  | succ n ih =>
    intro j hj haj
    simp only [scanDown]
    rw [Less_eq hn hj (by omega) (by omega), ok_bind]
    by_cases hb : before (nth d j) (nth d a)
    · simp only [hb, decide_True, Bool.not_true, Bool.false_eq_true, if_false]
      exact ⟨j, rfl, Nat.le_refl _, by omega, fun k h1 h2 => by omega, fun _ => hb⟩
    · simp only [hb, decide_False, Bool.not_false, if_true]
      obtain ⟨j', e, h1, h2, h3, h4⟩ := ih (j - 1) (by omega) (by omega)
      refine ⟨j', e, by omega, by omega, ?_, fun h => h4 (by omega)⟩
      intro k hk1 hk2
      by_cases hkj : k = j
      · subst hkj; exact hb
      · exact h3 k hk1 (by omega)

/-- One round of the two scans of partition. -/
theorem scan_round (d : Endpoints) (a b i j : Nat) (hn : (d.map Endpoint.Path).Nodup)
    (hb : b ≤ d.length) (hai : a < i) (hij : i ≤ j + 1) (hjb : j < b)
    (HL : ∀ k, a < k → k < i → before (nth d k) (nth d a))
    (HR : ∀ k, j < k → k < b → ¬ before (nth d k) (nth d a)) :
    ∃ i' j', scanUp d a (j + 1 - i) i = .ok i' ∧ scanDown d a (j + 1 - i') j = .ok j'
      ∧ i ≤ i' ∧ j' ≤ j ∧ i' ≤ j' + 1 ∧ a ≤ j'
      ∧ (∀ k, a < k → k < i' → before (nth d k) (nth d a))
      ∧ (∀ k, j' < k → k < b → ¬ before (nth d k) (nth d a))
      ∧ (i' ≤ j' → i' < j' ∧ ¬ before (nth d i') (nth d a) ∧ before (nth d j') (nth d a)) := by
  obtain ⟨i', e1, h1, h2, h3, h4⟩ := scanUp_spec d a hn (by omega) (j + 1 - i) i hai (by omega)
  obtain ⟨j', e2, g1, g2, g3, g4⟩ := scanDown_spec d a hn (j + 1 - i') j (by omega) (by omega)
  refine ⟨i', j', e1, e2, h1, g1, by omega, by omega, ?_, ?_, ?_⟩
  · intro k hk1 hk2
    by_cases hki : k < i
    · exact HL k hk1 hki
    · exact h3 k (by omega) hk2
  · intro k hk1 hk2
    by_cases hkj : j < k
    · exact HR k hkj hk2
    · exact g3 k hk1 (by omega)
  · intro hle
    have hA := h4 (by omega)
    have hB := g4 (by omega)
    refine ⟨?_, hA, hB⟩
    rcases Nat.eq_or_lt_of_le hle with h | h
    · rw [h] at hA; exact absurd hB hA
    · exact h

theorem partitionLoop_spec (a b : Nat) : ∀ (fuel i j : Nat) (d : Endpoints),
    (d.map Endpoint.Path).Nodup → b ≤ d.length → a < i → i ≤ j + 1 → j < b →
    j + 1 - i < fuel →
    (∀ k, a < k → k < i → before (nth d k) (nth d a)) →
    (∀ k, j < k → k < b → ¬ before (nth d k) (nth d a)) →
    ∃ d' j', partitionLoop a fuel i j d = .ok (d', j') ∧ Step (a + 1) b d d'
      ∧ a ≤ j' ∧ j' < b
      ∧ (∀ k, a < k → k ≤ j' → before (nth d' k) (nth d' a))
      ∧ (∀ k, j' < k → k < b → ¬ before (nth d' k) (nth d' a)) := by
  intro fuel
  induction fuel with
  | zero => intro i j d _ _ _ _ _ h; omega
  | succ fuel ih =>
    intro i j d hn hb hai hij hjb hfuel HL HR
    simp only [partitionLoop]
    obtain ⟨i', j', e1, e2, h1, h2, h3, h4, h5, h6, h7⟩ :=
      scan_round d a b i j hn hb hai hij hjb HL HR
    rw [e1, ok_bind, e2, ok_bind]
    by_cases hgt : i' > j'
    · rw [if_pos hgt]
      exact ⟨d, j', rfl, Step.refl _ _ _, h4, by omega, fun k hk1 hk2 => h5 k hk1 (by omega), h6⟩
    · rw [if_neg hgt]
      obtain ⟨hlt, hA, hB⟩ := h7 (by omega)
      have hi1 : i' < d.length := by omega
      have hi2 : j' < d.length := by omega
      rw [Swap_eq hi1 hi2, ok_bind]
      have hst : Step (a + 1) b d (swp d i' j') :=
        Step_swp (by omega) (by omega) (by omega) (by omega) hb
      have hnth := fun k => nth_swp hi1 hi2 k
      obtain ⟨d', j3, e, st, g1, g2, g3, g4⟩ := ih (i' + 1) (j' - 1) (swp d i' j') (hst.nodup hn)
        (by rw [hst.length]; exact hb) (by omega) (by omega) (by omega) (by omega)
        (by
          intro k hk1 hk2
          rw [hnth k, hnth a, if_neg (by omega : ¬ a = j'), if_neg (by omega : ¬ a = i'),
            if_neg (by omega : ¬ k = j')]
          by_cases hki : k = i'
          · rw [if_pos hki]; exact hB
          · rw [if_neg hki]; exact h5 k hk1 (by omega))
        (by
          intro k hk1 hk2
          rw [hnth k, hnth a, if_neg (by omega : ¬ a = j'), if_neg (by omega : ¬ a = i')]
          by_cases hkj : k = j'
          · rw [if_pos hkj]; exact hA
          · rw [if_neg hkj, if_neg (by omega : ¬ k = i')]; exact h6 k (by omega) hk2)
      exact ⟨d', j3, e, hst.trans st, g1, g2, g3, g4⟩

theorem partition_spec (d : Endpoints) (a b pivot : Nat) (hn : (d.map Endpoint.Path).Nodup)
    (hap : a ≤ pivot) (hpb : pivot < b) (hb : b ≤ d.length) :
    ∃ d' mid ap, partition d a b pivot = .ok (d', mid, ap) ∧ Step a b d d'
      ∧ a ≤ mid ∧ mid < b
      ∧ (∀ k, a ≤ k → k < mid → before (nth d' k) (nth d' mid))
      ∧ (∀ k, mid < k → k < b → ¬ before (nth d' k) (nth d' mid)) := by
  simp only [partition]
  have hi1 : a < d.length := by omega
  have hi2 : pivot < d.length := by omega
  rw [Swap_eq hi1 hi2, ok_bind]
  have st1 : Step a b d (swp d a pivot) := Step_swp (by omega) hpb (Nat.le_refl _) hap hb
  have hn1 := st1.nodup hn
  have hb1 : b ≤ (swp d a pivot).length := by rw [st1.length]; exact hb
  generalize swp d a pivot = d1 at st1 hn1 hb1
  obtain ⟨i', j', e1, e2, h1, h2, h3, h4, h5, h6, h7⟩ :=
    scan_round d1 a b (a + 1) (b - 1) hn1 hb1 (by omega) (by omega) (by omega)
      (fun k hk1 hk2 => by omega) (fun k hk1 hk2 => by omega)
  rw [e1, ok_bind, e2, ok_bind]
  -- the final swap of the pivot into its place
  have fin : ∀ (d3 : Endpoints) (j3 : Nat), Step a b d d3 → a ≤ j3 → j3 < b →
      (∀ k, a < k → k ≤ j3 → before (nth d3 k) (nth d3 a)) →
      (∀ k, j3 < k → k < b → ¬ before (nth d3 k) (nth d3 a)) →
      d3.Swap j3 a = .ok (swp d3 j3 a) ∧ Step a b d (swp d3 j3 a)
        ∧ (∀ k, a ≤ k → k < j3 → before (nth (swp d3 j3 a) k) (nth (swp d3 j3 a) j3))
        ∧ (∀ k, j3 < k → k < b → ¬ before (nth (swp d3 j3 a) k) (nth (swp d3 j3 a) j3)) := by
    intro d3 j3 st3 g1 g2 g3 g4
    have hb3 : b ≤ d3.length := by rw [st3.length]; exact hb
    have k1 : j3 < d3.length := by omega
    have k2 : a < d3.length := by omega
    have hnth := fun k => nth_swp k1 k2 k
    refine ⟨Swap_eq k1 k2, st3.trans (Step_swp g2 (by omega) g1 (Nat.le_refl _) hb3), ?_, ?_⟩
    · intro k hk1 hk2
      rw [hnth k, hnth j3]
      by_cases hja : j3 = a
      · omega
      · rw [if_neg hja, if_pos rfl]
        by_cases hka : k = a
        · rw [if_pos hka]; exact g3 j3 (by omega) (Nat.le_refl _)
        · rw [if_neg hka, if_neg (by omega : ¬ k = j3)]; exact g3 k (by omega) (by omega)
    · intro k hk1 hk2
      rw [hnth k, hnth j3, if_neg (by omega : ¬ k = a), if_neg (by omega : ¬ k = j3)]
      by_cases hja : j3 = a
      · rw [if_pos hja]; rw [hja] at g4; rw [hja]; exact g4 k (by omega) hk2
      · rw [if_neg hja, if_pos rfl]; exact g4 k hk1 hk2
  by_cases hgt : i' > j'
  · rw [if_pos hgt]
    obtain ⟨f1, f2, f3, f4⟩ := fin d1 j' st1 h4 (by omega)
      (fun k hk1 hk2 => h5 k hk1 (by omega)) h6
    rw [f1, ok_bind]
    exact ⟨_, j', true, rfl, f2, h4, by omega, f3, f4⟩
  · rw [if_neg hgt]
    obtain ⟨hlt, hA, hB⟩ := h7 (by omega)
    have hi1 : i' < d1.length := by omega
    have hi2 : j' < d1.length := by omega
    rw [Swap_eq hi1 hi2, ok_bind]
    have hst : Step (a + 1) b d1 (swp d1 i' j') :=
      Step_swp (by omega) (by omega) (by omega) (by omega) hb1
    have hnth := fun k => nth_swp hi1 hi2 k
    obtain ⟨d3, j3, e, st, g1, g2, g3, g4⟩ := partitionLoop_spec a b (b - a + 1) (i' + 1) (j' - 1)
        (swp d1 i' j') (hst.nodup hn1)
        (by rw [hst.length]; exact hb1) (by omega) (by omega) (by omega) (by omega)
        (by
          intro k hk1 hk2
          rw [hnth k, hnth a, if_neg (by omega : ¬ a = j'), if_neg (by omega : ¬ a = i'),
            if_neg (by omega : ¬ k = j')]
          by_cases hki : k = i'
          · rw [if_pos hki]; exact hB
          · rw [if_neg hki]; exact h5 k hk1 (by omega))
        (by
          intro k hk1 hk2
          rw [hnth k, hnth a, if_neg (by omega : ¬ a = j'), if_neg (by omega : ¬ a = i')]
          by_cases hkj : k = j'
          · rw [if_pos hkj]; exact hA
          · rw [if_neg hkj, if_neg (by omega : ¬ k = i')]; exact h6 k (by omega) hk2)
    rw [e, ok_bind]
    obtain ⟨f1, f2, f3, f4⟩ := fin d3 j3
      (st1.trans ((hst.trans st).mono (by omega) (Nat.le_refl _))) g1 g2 g3 g4
    simp only []
    rw [f1, ok_bind]
    exact ⟨_, j3, false, rfl, f2, g1, g2, f3, f4⟩

theorem order2_spec (d : Endpoints) (hn : (d.map Endpoint.Path).Nodup) (x y s : Nat)
    (hx : x < d.length) (hy : y < d.length) (hxy : x ≠ y) :
    ∃ p q s', order2 d x y s = .ok (p, q, s') ∧ ((p = x ∧ q = y) ∨ (p = y ∧ q = x)) := by
  simp only [order2]
  rw [Less_eq hn hy hx (Ne.symm hxy), ok_bind]
  by_cases hb : before (nth d y) (nth d x)
  · simp only [hb, decide_True, if_true]
    exact ⟨y, x, s + 1, rfl, Or.inr ⟨rfl, rfl⟩⟩
  · simp only [hb, decide_False, Bool.false_eq_true, if_false]
    exact ⟨x, y, s, rfl, Or.inl ⟨rfl, rfl⟩⟩

theorem median_spec (d : Endpoints) (hn : (d.map Endpoint.Path).Nodup) (x y z s : Nat)
    (hx : x < d.length) (hy : y < d.length) (hz : z < d.length) (hxy : x ≠ y) (hyz : y ≠ z)
    (hxz : x ≠ z) :
    ∃ m s', median d x y z s = .ok (m, s') ∧ (m = x ∨ m = y ∨ m = z) := by
  simp only [median]
  obtain ⟨p1, q1, s1, e1, h1⟩ := order2_spec d hn x y s hx hy hxy
  rw [e1, ok_bind]
  simp only []
  have k1 : q1 < d.length ∧ q1 ≠ z ∧ p1 < d.length ∧ p1 ≠ z ∧ p1 ≠ q1
      ∧ (p1 = x ∨ p1 = y) ∧ (q1 = x ∨ q1 = y) := by
    rcases h1 with ⟨rfl, rfl⟩ | ⟨rfl, rfl⟩
    · exact ⟨hy, hyz, hx, hxz, hxy, Or.inl rfl, Or.inr rfl⟩
    · exact ⟨hx, hxz, hy, hyz, Ne.symm hxy, Or.inr rfl, Or.inl rfl⟩
  obtain ⟨g1, g2, g3, g4, g5, g6, g7⟩ := k1
  obtain ⟨p2, q2, s2, e2, h2⟩ := order2_spec d hn q1 z s1 g1 hz g2
  rw [e2, ok_bind]
  simp only []
  have k2 : p2 < d.length ∧ p1 ≠ p2 ∧ (p2 = x ∨ p2 = y ∨ p2 = z) := by
    rcases h2 with ⟨rfl, rfl⟩ | ⟨rfl, rfl⟩
    · exact ⟨g1, g5, g7.elim Or.inl (fun h => Or.inr (Or.inl h))⟩
    · exact ⟨hz, g4, Or.inr (Or.inr rfl)⟩
  obtain ⟨p3, q3, s3, e3, h3⟩ := order2_spec d hn p1 p2 s2 g3 k2.1 k2.2.1
  rw [e3, ok_bind]
  refine ⟨q3, s3, rfl, ?_⟩
  rcases h3 with ⟨rfl, rfl⟩ | ⟨rfl, rfl⟩
  · exact k2.2.2
  · exact g6.elim Or.inl (fun h => Or.inr (Or.inl h))

theorem choosePivot_spec (d : Endpoints) (a b : Nat) (hn : (d.map Endpoint.Path).Nodup)
    (hab : a + 12 < b) (hb : b ≤ d.length) :
    ∃ pivot hint, choosePivot d a b = .ok (pivot, hint) ∧ a ≤ pivot ∧ pivot < b := by
  simp only [choosePivot]
  have fin : ∀ (m s : Nat), a ≤ m → m < b →
      ∃ pivot hint, (if s = 0 then (pure (m, sortedHint.increasingHint) :
          Except String (Nat × sortedHint))
        else if s = 12 then pure (m, sortedHint.decreasingHint)
        else pure (m, sortedHint.unknownHint)) = .ok (pivot, hint) ∧ a ≤ pivot ∧ pivot < b := by
    intro m s h1 h2
    by_cases h0 : s = 0
    · rw [if_pos h0]; exact ⟨m, _, rfl, h1, h2⟩
    · rw [if_neg h0]
      by_cases h12 : s = 12
      · rw [if_pos h12]; exact ⟨m, _, rfl, h1, h2⟩
      · rw [if_neg h12]; exact ⟨m, _, rfl, h1, h2⟩
  rw [if_pos (by omega : b - a ≥ 8)]
  have hq1 : 4 * ((b - a) / 4) ≤ b - a := Nat.mul_div_le _ _
  have hq2 : 3 ≤ (b - a) / 4 := by omega
  have hq3 : b - a ≥ 50 → 12 ≤ (b - a) / 4 := by omega
  generalize (b - a) / 4 = q at hq1 hq2 hq3
  by_cases h50 : b - a ≥ 50
  · rw [if_pos h50]
    have hq4 := hq3 h50
    simp only [medianAdjacent]
    obtain ⟨i', s1, e1, h1⟩ := median_spec d hn (a + q * 1 - 1) (a + q * 1)
      (a + q * 1 + 1) 0 (by omega) (by omega) (by omega) (by omega) (by omega)
      (by omega)
    have b1 : a + q * 1 - 1 ≤ i' ∧ i' ≤ a + q * 1 + 1 := by omega
    clear h1
    rw [e1, ok_bind]
    simp only []
    obtain ⟨j', s2, e2, h2⟩ := median_spec d hn (a + q * 2 - 1) (a + q * 2)
      (a + q * 2 + 1) s1 (by omega) (by omega) (by omega) (by omega) (by omega)
      (by omega)
    have b2 : a + q * 2 - 1 ≤ j' ∧ j' ≤ a + q * 2 + 1 := by omega
    clear h2
    rw [e2, ok_bind]
    simp only []
    obtain ⟨k', s3, e3, h3⟩ := median_spec d hn (a + q * 3 - 1) (a + q * 3)
      (a + q * 3 + 1) s2 (by omega) (by omega) (by omega) (by omega) (by omega)
      (by omega)
    have b3 : a + q * 3 - 1 ≤ k' ∧ k' ≤ a + q * 3 + 1 := by omega
    clear h3
    rw [e3, ok_bind]
    simp only [pure, Except.pure, ok_bind]
    obtain ⟨m, s4, e4, h4⟩ := median_spec d hn i' j' k' s3 (by omega) (by omega) (by omega)
      (by omega) (by omega) (by omega)
    rw [e4, ok_bind]
    exact fin m s4 (by omega) (by omega)
  · rw [if_neg h50]
    simp only [pure, Except.pure, ok_bind]
    obtain ⟨m, s4, e4, h4⟩ := median_spec d hn (a + q * 1) (a + q * 2)
      (a + q * 3) 0 (by omega) (by omega) (by omega) (by omega) (by omega)
      (by omega)
    rw [e4, ok_bind]
    exact fin m s4 (by omega) (by omega)

theorem nextPowerOfTwo_le (length : Nat) (h : length ≠ 0) : nextPowerOfTwo length ≤ 2 * length := by
  simp only [nextPowerOfTwo, bitsLen, if_neg h]
  refine Nat.le_trans (Nat.mod_le _ _) ?_
  rw [Nat.shiftLeft_eq, Nat.one_mul, Nat.pow_succ]
  have := Nat.log2_self_le h
  omega

theorem breakLoop_spec (a b modulus idx : Nat) (hlen : 8 ≤ b - a) (hm : modulus ≤ 2 * (b - a))
    (hidx : idx = a + ((b - a) / 4) * 2 - 1) : ∀ (n i random : Nat) (d : Endpoints),
    b ≤ d.length → i + n ≤ 3 →
    ∃ d', breakLoop a (b - a) modulus idx n i random d = .ok d' ∧ Step a b d d' := by
  intro n
  induction n with
  | zero => intro i random d _ _; exact ⟨d, rfl, Step.refl _ _ _⟩
  | succ n ih =>
    intro i random d hb hi
    simp only [breakLoop]
    have hand : xorshiftNext random &&& (modulus - 1) ≤ modulus - 1 := Nat.and_le_right
    generalize xorshiftNext random &&& (modulus - 1) = other at hand
    have ho : (if other ≥ b - a then other - (b - a) else other) < b - a := by
      split <;> omega
    generalize (if other ≥ b - a then other - (b - a) else other) = o at ho
    have hi1 : idx + i < d.length := by omega
    have hi2 : a + o < d.length := by omega
    rw [Swap_eq hi1 hi2, ok_bind]
    have hst : Step a b d (swp d (idx + i) (a + o)) :=
      Step_swp (by omega) (by omega) (by omega) (by omega) hb
    obtain ⟨d', e, st⟩ := ih (i + 1) (xorshiftNext random) _ (by rw [hst.length]; exact hb)
      (by omega)
    exact ⟨d', e, hst.trans st⟩

theorem breakPatterns_spec (d : Endpoints) (a b : Nat) (hb : b ≤ d.length) :
    ∃ d', breakPatterns d a b = .ok d' ∧ Step a b d d' := by
  simp only [breakPatterns]
  by_cases h8 : b - a ≥ 8
  · rw [if_pos h8]
    exact breakLoop_spec a b _ _ h8 (nextPowerOfTwo_le _ (by omega)) rfl 3 0 (b - a) d hb
      (by omega)
  · rw [if_neg h8]
    exact ⟨d, rfl, Step.refl _ _ _⟩

theorem reverseLoop_spec (a b : Nat) : ∀ (fuel i j : Nat) (d : Endpoints),
    b ≤ d.length → a ≤ i → j < b → j + 1 - i < fuel →
    ∃ d', reverseLoop fuel i j d = .ok d' ∧ Step a b d d' := by
  intro fuel
  induction fuel with
  | zero => intro i j d _ _ _ h; omega
  | succ fuel ih =>
    intro i j d hb hai hjb hf
    simp only [reverseLoop]
    by_cases hij : i < j
    · rw [if_pos hij]
      have hi1 : i < d.length := by omega
      have hi2 : j < d.length := by omega
      rw [Swap_eq hi1 hi2, ok_bind]
      have hst : Step a b d (swp d i j) := Step_swp (by omega) (by omega) (by omega) (by omega) hb
      obtain ⟨d', e, st⟩ := ih (i + 1) (j - 1) _ (by rw [hst.length]; exact hb) (by omega)
        (by omega) (by omega)
      exact ⟨d', e, hst.trans st⟩
    · rw [if_neg hij]
      exact ⟨d, rfl, Step.refl _ _ _⟩

theorem reverseRange_spec (d : Endpoints) (a b : Nat) (hab : a < b) (hb : b ≤ d.length) :
    ∃ d', reverseRange d a b = .ok d' ∧ Step a b d d' :=
  reverseLoop_spec a b (b - a + 1) a (b - 1) d hb (Nat.le_refl _) (by omega) (by omega)

theorem Below_step {a b : Nat} {d d' : Endpoints} (st : Step a b d d') (h : Below d a b) :
    Below d' a b := by
  intro p q hp hq1 hq2
  obtain ⟨m, hm1, hm2, e⟩ := st.inn q hq1 hq2
  rw [e, st.out p (Or.inl hp)]
  exact h p m hp hm1 hm2

theorem SortedOn_out {lo b a i : Nat} {d d' : Endpoints} (st : Step lo b d d') (hi : i ≤ lo)
    (h : SortedOn d a i) : SortedOn d' a i := by
  intro p q hp hpq hq
  rw [st.out p (Or.inl (by omega)), st.out q (Or.inl (by omega))]
  exact h p q hp hpq hq

theorem SortedOn_extend (d : Endpoints) (a i : Nat) (hai : a < i) (h : SortedOn d a i) :
    ∀ (i' : Nat), i ≤ i' → (∀ k, i ≤ k → k < i' → before (nth d (k - 1)) (nth d k)) →
    SortedOn d a i' := by
  intro i'
  induction i' with
  | zero => intro h0; omega
  | succ n ih =>
    intro hle hadj
    rcases Nat.eq_or_lt_of_le hle with h1 | h1
    · rw [← h1]; exact h
    · have hs := ih (by omega) (fun k hk1 hk2 => hadj k hk1 (by omega))
      intro p q hp hpq hq
      by_cases hqn : q = n
      · subst hqn
        rcases Nat.eq_or_lt_of_le hpq with h2 | h2
        · rw [h2]; exact before_refl _
        · exact before_trans (hs p (q - 1) hp (by omega) (by omega)) (hadj q (by omega) (by omega))
      · exact hs p q hp hpq (by omega)

theorem shiftLeft_eq (a b : Nat) : ∀ (j : Nat) (d : Endpoints),
    (d.map Endpoint.Path).Nodup → a ≤ j → j < b → b ≤ d.length → Below d a b →
    shiftLeft j d = insertionInner a j d := by
  intro j
  induction j with
  | zero => intro d _ _ _ _ _; rfl
  | succ j ih =>
    intro d hn haj hjb hb hbel
    simp only [shiftLeft, insertionInner]
    rw [Less_eq hn (by omega) (by omega) (by omega), ok_bind]
    by_cases ha : a < j + 1
    · rw [if_pos ha, ok_bind]
      by_cases hb' : before (nth d (j + 1)) (nth d j)
      · simp only [hb', decide_True, Bool.not_true, Bool.false_eq_true, if_false, if_true]
        have hi1 : j + 1 < d.length := by omega
        have hi2 : j < d.length := by omega
        rw [Swap_eq hi1 hi2, ok_bind, ok_bind]
        have hst : Step a b d (swp d (j + 1) j) :=
          Step_swp hjb (by omega) (by omega) (by omega) hb
        exact ih _ (hst.nodup hn) (by omega) (by omega) (by rw [hst.length]; exact hb)
          (Below_step hst hbel)
      · simp only [hb', decide_False, Bool.not_false, if_true, Bool.false_eq_true, if_false]
    · rw [if_neg ha]
      have hb' : ¬ before (nth d (j + 1)) (nth d j) := hbel j (j + 1) (by omega) (by omega) hjb
      simp only [hb', decide_False, Bool.not_false, if_true]

theorem pisScan_spec (d : Endpoints) (hn : (d.map Endpoint.Path).Nodup) :
    ∀ (n i : Nat), 0 < i → i + n ≤ d.length →
    ∃ i', pisScan d n i = .ok i' ∧ i ≤ i' ∧ i' ≤ i + n
      ∧ (∀ k, i ≤ k → k < i' → before (nth d (k - 1)) (nth d k))
      ∧ (i' < i + n → before (nth d i') (nth d (i' - 1))) := by
  intro n
  induction n with
  | zero =>
    intro i _ _
    exact ⟨i, rfl, Nat.le_refl _, Nat.le_refl _, fun k h1 h2 => by omega, fun h => by omega⟩
  | succ n ih =>
    intro i hi hlen
    simp only [pisScan]
    rw [Less_eq hn (by omega) (by omega) (by omega), ok_bind]
    by_cases hb : before (nth d i) (nth d (i - 1))
    · simp only [hb, decide_True, Bool.not_true, Bool.false_eq_true, if_false]
      exact ⟨i, rfl, Nat.le_refl _, by omega, fun k h1 h2 => by omega, fun _ => hb⟩
    · simp only [hb, decide_False, Bool.not_false, if_true]
      obtain ⟨i', e, h1, h2, h3, h4⟩ := ih (i + 1) (by omega) (by omega)
      refine ⟨i', e, by omega, by omega, ?_, fun h => h4 (by omega)⟩
      intro k hk1 hk2
      by_cases hki : k = i
      · subst hki; exact before_of_not hb
      · exact h3 k (by omega) hk2

theorem shiftRight_spec (lo b : Nat) : ∀ (n j : Nat) (d : Endpoints),
    (d.map Endpoint.Path).Nodup → lo < j → j + n ≤ b → b ≤ d.length →
    ∃ d', shiftRight n j d = .ok d' ∧ Step lo b d d' := by
  intro n
  induction n with
  | zero => intro j d _ _ _ _; exact ⟨d, rfl, Step.refl _ _ _⟩
  | succ n ih =>
    intro j d hn hlo hjb hb
    simp only [shiftRight]
    rw [Less_eq hn (by omega) (by omega) (by omega), ok_bind]
    by_cases hb' : before (nth d j) (nth d (j - 1))
    · simp only [hb', decide_True, Bool.not_true, Bool.false_eq_true, if_false]
      have hi1 : j < d.length := by omega
      have hi2 : j - 1 < d.length := by omega
      rw [Swap_eq hi1 hi2, ok_bind]
      have hst : Step lo b d (swp d j (j - 1)) :=
        Step_swp (by omega) (by omega) (by omega) (by omega) hb
      obtain ⟨d', e, st⟩ := ih (j + 1) _ (hst.nodup hn) (by omega) (by omega)
        (by rw [hst.length]; exact hb)
      exact ⟨d', e, hst.trans st⟩
    · simp only [hb', decide_False, Bool.not_false, if_true]
      exact ⟨d, rfl, Step.refl _ _ _⟩

theorem pisSteps_spec (a b : Nat) : ∀ (n i : Nat) (d : Endpoints),
    (d.map Endpoint.Path).Nodup → a < i → i ≤ b → b ≤ d.length → SortedOn d a i →
    Below d a b →
    ∃ d' s, pisSteps a b n i d = .ok (d', s) ∧ Step a b d d' ∧ (s = true → SortedOn d' a b) := by
  intro n
  induction n with
  | zero =>
    intro i d _ _ _ _ _ _
    exact ⟨d, false, rfl, Step.refl _ _ _, fun h => by cases h⟩
  | succ n ih =>
    intro i d hn hai hib hb hs hbel
    simp only [pisSteps]
    obtain ⟨i', e1, h1, h2, h3, h4⟩ := pisScan_spec d hn (b - i) i (by omega) (by omega)
    rw [e1, ok_bind]
    have hs' : SortedOn d a i' := SortedOn_extend d a i hai hs i' h1 h3
    by_cases hib' : i' = b
    · rw [if_pos hib']
      exact ⟨d, true, rfl, Step.refl _ _ _, fun _ => hib' ▸ hs'⟩
    · rw [if_neg hib']
      by_cases h50 : b - a < 50
      · rw [if_pos h50]
        exact ⟨d, false, rfl, Step.refl _ _ _, fun h => by cases h⟩
      · rw [if_neg h50]
        have hi1 : i' < d.length := by omega
        have hi2 : i' - 1 < d.length := by omega
        rw [Swap_eq hi1 hi2, ok_bind]
        have st1 : Step a b d (swp d i' (i' - 1)) :=
          Step_swp (by omega) (by omega) (by omega) (by omega) hb
        have hnth := fun k => nth_swp hi1 hi2 k
        have hn1 := st1.nodup hn
        have hb1 : b ≤ (swp d i' (i' - 1)).length := by rw [st1.length]; exact hb
        have hbel1 := Below_step st1 hbel
        have hso1 : SortedOn (swp d i' (i' - 1)) a (i' - 1) := by
          intro p q hp hpq hq
          rw [hnth p, hnth q, if_neg (by omega), if_neg (by omega), if_neg (by omega),
            if_neg (by omega)]
          exact hs' p q hp hpq (by omega)
        generalize swp d i' (i' - 1) = d1 at st1 hn1 hb1 hbel1 hso1
        -- shifting the smaller element to the left
        have left : ∃ d2, (if i' - a ≥ 2 then shiftLeft (i' - 1) d1 else pure d1) = .ok d2
            ∧ Step a i' d1 d2 ∧ SortedOn d2 a i' := by
          by_cases h2 : i' - a ≥ 2
          · rw [if_pos h2, shiftLeft_eq a b (i' - 1) d1 hn1 (by omega) (by omega) hb1 hbel1]
            obtain ⟨d2, e2, st2, so2⟩ := insertionInner_spec a (i' - 1) (i' - 1) d1 hn1
              (by omega) (Nat.le_refl _) (by omega)
              (fun p q hp hpq hq _ hq' => hso1 p q hp (by omega) (by omega))
              (fun q hq1 hq2 => by omega)
            have hk : i' - 1 + 1 = i' := by omega
            rw [hk] at st2 so2
            exact ⟨d2, e2, st2, so2⟩
          · rw [if_neg h2]
            refine ⟨d1, rfl, Step.refl _ _ _, ?_⟩
            intro p q hp hpq hq
            have : p = q := by omega
            subst this
            exact before_refl _
        obtain ⟨d2, e2, st2, so2⟩ := left
        have hn2 := st2.nodup hn1
        have hb2 : b ≤ d2.length := by rw [st2.length]; exact hb1
        -- shifting the greater element to the right
        have right : ∃ d3, (if b - i' ≥ 2 then shiftRight (b - (i' + 1)) (i' + 1) d2
            else pure d2) = .ok d3 ∧ Step i' b d2 d3 := by
          by_cases h2 : b - i' ≥ 2
          · rw [if_pos h2]
            exact shiftRight_spec i' b _ _ d2 hn2 (by omega) (by omega) hb2
          · rw [if_neg h2]
            exact ⟨d2, rfl, Step.refl _ _ _⟩
        obtain ⟨d3, e3, st3⟩ := right
        have st13 : Step a b d1 d3 :=
          (st2.mono (Nat.le_refl _) (by omega)).trans (st3.mono (by omega) (Nat.le_refl _))
        obtain ⟨d4, s, e4, st4, so4⟩ := ih i' d3 (st13.nodup hn1) (by omega) (by omega)
          (by rw [st13.length]; exact hb1) (SortedOn_out st3 (Nat.le_refl _) so2)
          (Below_step st13 hbel1)
        refine ⟨d4, s, ?_, st1.trans (st13.trans st4), so4⟩
        rw [← e4]
        have r3 : (if b - i' ≥ 2 then do
              let y ← shiftRight (b - (i' + 1)) (i' + 1) d2
              pisSteps a b n i' y
            else do
              let y ← pure d2
              pisSteps a b n i' y) = pisSteps a b n i' d3 := by
          by_cases hB : b - i' ≥ 2
          · rw [if_pos hB] at e3
            rw [if_pos hB, e3, ok_bind]
          · rw [if_neg hB] at e3
            rw [if_neg hB, Except.ok.inj e3, pure_bind]
        by_cases hA : i' - a ≥ 2
        · rw [if_pos hA] at e2
          rw [if_pos hA, e2, ok_bind]
          exact r3
        · rw [if_neg hA] at e2
          rw [if_neg hA, pure_bind, Except.ok.inj e2]
          exact r3

theorem partialInsertionSort_spec (d : Endpoints) (a b : Nat) (hn : (d.map Endpoint.Path).Nodup)
    (hab : a < b) (hb : b ≤ d.length) (hbel : Below d a b) :
    ∃ d' s, partialInsertionSort d a b = .ok (d', s) ∧ Step a b d d'
      ∧ (s = true → SortedOn d' a b) := by
  apply pisSteps_spec a b 5 (a + 1) d hn (by omega) (by omega) hb _ hbel
  intro p q hp hpq hq
  have : p = q := by omega
  subst this
  exact before_refl _

theorem sorted_join (d4 d6 : Endpoints) (a mid b : Nat)
    (L : ∀ k, a ≤ k → k < mid → ∃ m, a ≤ m ∧ m < mid ∧ nth d6 k = nth d4 m)
    (R : ∀ k, mid < k → k < b → ∃ m, mid < m ∧ m < b ∧ nth d6 k = nth d4 m)
    (M : nth d6 mid = nth d4 mid)
    (PL : ∀ k, a ≤ k → k < mid → before (nth d4 k) (nth d4 mid))
    (PR : ∀ k, mid < k → k < b → ¬ before (nth d4 k) (nth d4 mid))
    (SL : SortedOn d6 a mid) (SR : SortedOn d6 (mid + 1) b) : SortedOn d6 a b := by
  have hL : ∀ k, a ≤ k → k < mid → before (nth d6 k) (nth d6 mid) := by
    intro k h1 h2
    obtain ⟨m, hm1, hm2, e⟩ := L k h1 h2
    rw [e, M]; exact PL m hm1 hm2
  have hR : ∀ k, mid < k → k < b → before (nth d6 mid) (nth d6 k) := by
    intro k h1 h2
    obtain ⟨m, hm1, hm2, e⟩ := R k h1 h2
    rw [e, M]; exact before_of_not (PR m hm1 hm2)
  intro p q hp hpq hq
  by_cases h1 : q < mid
  · exact SL p q hp hpq h1
  · by_cases h2 : mid < p
    · exact SR p q (by omega) hpq hq
    · by_cases h3 : p = mid
      · subst h3
        by_cases h4 : q = p
        · subst h4; exact before_refl _
        · exact hR q (by omega) hq
      · by_cases h4 : q = mid
        · subst h4; exact hL p hp (by omega)
        · exact before_trans (hL p hp (by omega)) (hR q (by omega) hq)

theorem SortedOn_congr {d d' : Endpoints} {a b : Nat}
    (h : ∀ k, a ≤ k → k < b → nth d' k = nth d k) (hs : SortedOn d a b) : SortedOn d' a b := by
  intro p q hp hpq hq
  rw [h p hp (by omega), h q (by omega) hq]
  exact hs p q hp hpq hq

theorem Below_of_partition (d : Endpoints) (a mid b : Nat) (hbel : Below d a b)
    (hm : a ≤ mid)
    (PL : ∀ k, a ≤ k → k < mid → before (nth d k) (nth d mid))
    (PR : ∀ k, mid < k → k < b → ¬ before (nth d k) (nth d mid)) : Below d (mid + 1) b := by
  intro p q hp hq1 hq2
  by_cases h1 : p < a
  · exact hbel p q h1 (by omega) hq2
  · by_cases h2 : p = mid
    · subst h2; exact PR q (by omega) hq2
    · intro hc
      exact PR q (by omega) hq2 (before_trans hc (PL p (by omega) (by omega)))

theorem Below_step_left {d d' : Endpoints} {a mid b : Nat} (st : Step a mid d d')
    (h : Below d (mid + 1) b) : Below d' (mid + 1) b := by
  intro p q hp hq1 hq2
  rw [st.out q (Or.inr (by omega))]
  by_cases hin : a ≤ p ∧ p < mid
  · obtain ⟨m, hm1, hm2, e⟩ := st.inn p hin.1 hin.2
    rw [e]
    exact h m q (by omega) hq1 hq2
  · rw [st.out p (by omega)]
    exact h p q hp hq1 hq2

theorem Below_mono {d : Endpoints} {a b b' : Nat} (h : Below d a b) (hb : b' ≤ b) :
    Below d a b' :=
  fun p q hp hq1 hq2 => h p q hp hq1 (by omega)

theorem Below_step_right {d d' : Endpoints} {a mid b : Nat} (st : Step (mid + 1) b d d')
    (h : Below d a mid) : Below d' a mid := by
  intro p q hp hq1 hq2
  rw [st.out q (Or.inl (by omega)), st.out p (Or.inl (by omega))]
  exact h p q hp hq1 hq2

theorem pdqsort_spec : ∀ (fuel : Nat) (d : Endpoints) (a b limit : Nat) (wb wp : Bool),
    (d.map Endpoint.Path).Nodup → a ≤ b → b ≤ d.length → b - a < fuel → Below d a b →
    ∃ d', pdqsort fuel d a b limit wb wp = .ok d' ∧ Step a b d d' ∧ SortedOn d' a b := by
  intro fuel
  induction fuel with
  | zero => intro d a b limit wb wp _ _ _ h _; omega
  | succ fuel ih =>
    intro d a b limit wb wp hn hab hb hfuel hbel
    simp only [pdqsort]
    by_cases h12 : b - a ≤ 12
    · rw [if_pos h12]
      exact insertionSort_spec d a b hn hab hb
    · rw [if_neg h12]
      by_cases hl : limit = 0
      · rw [if_pos hl]
        exact heapSort_spec d a b hn hab hb
      · rw [if_neg hl]
        -- breakPatterns, when the last partition was unbalanced
        have stageA : ∃ dA lim, (if (!wb) = true then do
              let r ← breakPatterns d a b
              pure (r, limit - 1)
            else pure (d, limit)) = Except.ok (dA, lim) ∧ Step a b d dA := by
          by_cases hwb : (!wb) = true
          · rw [if_pos hwb]
            obtain ⟨dA, e, st⟩ := breakPatterns_spec d a b hb
            exact ⟨dA, limit - 1, by rw [e, ok_bind]; rfl, st⟩
          · rw [if_neg hwb]
            exact ⟨d, limit, rfl, Step.refl _ _ _⟩
        obtain ⟨dA, lim, eA, stA⟩ := stageA
        rw [eA, ok_bind]
        simp only []
        have hnA := stA.nodup hn
        have hbA : b ≤ dA.length := by rw [stA.length]; exact hb
        obtain ⟨pivot, hint, eB, hp1, hp2⟩ := choosePivot_spec dA a b hnA (by omega) hbA
        rw [eB, ok_bind]
        simp only []
        -- reverseRange, when the slice looks decreasing
        have stageC : ∃ dC pv h, (if hint = sortedHint.decreasingHint then do
              let r ← reverseRange dA a b
              pure (r, b - 1 - (pivot - a), sortedHint.increasingHint)
            else pure (dA, pivot, hint)) = Except.ok (dC, pv, h) ∧ Step a b dA dC
              ∧ a ≤ pv ∧ pv < b := by
          by_cases hh : hint = sortedHint.decreasingHint
          · rw [if_pos hh]
            obtain ⟨dC, e, st⟩ := reverseRange_spec dA a b (by omega) hbA
            exact ⟨dC, _, _, by rw [e, ok_bind]; rfl, st, by omega, by omega⟩
          · rw [if_neg hh]
            exact ⟨dA, pivot, hint, rfl, Step.refl _ _ _, hp1, hp2⟩
        obtain ⟨dC, pv, h, eC, stC, hpv1, hpv2⟩ := stageC
        rw [eC, ok_bind]
        simp only []
        have stAC := stA.trans stC
        have hnC := stAC.nodup hn
        have hbC : b ≤ dC.length := by rw [stAC.length]; exact hb
        -- partialInsertionSort, when the slice looks sorted
        have stageD : ∃ dD s, (if (wb && wp && decide (h = sortedHint.increasingHint)) = true then
              partialInsertionSort dC a b
            else pure (dC, false)) = Except.ok (dD, s) ∧ Step a b dC dD
              ∧ (s = true → SortedOn dD a b) := by
          by_cases hc : (wb && wp && decide (h = sortedHint.increasingHint)) = true
          · rw [if_pos hc]
            exact partialInsertionSort_spec dC a b hnC (by omega) hbC (Below_step stAC hbel)
          · rw [if_neg hc]
            exact ⟨dC, false, rfl, Step.refl _ _ _, fun h => by cases h⟩
        obtain ⟨dD, s, eD, stD, soD⟩ := stageD
        rw [eD, ok_bind]
        simp only []
        have stAD := stAC.trans stD
        have hnD := stAD.nodup hn
        have hbD : b ≤ dD.length := by rw [stAD.length]; exact hb
        have hbelD := Below_step stAD hbel
        by_cases hs : s = true
        · rw [if_pos hs]
          exact ⟨dD, rfl, stAD, soD hs⟩
        · rw [if_neg hs]
          have stageE : (if a > 0 then do
                let r ← dD.Less (a - 1) pv
                pure !r
              else pure false) = Except.ok false := by
            by_cases ha : a > 0
            · rw [if_pos ha, Less_eq hnD (by omega) (by omega) (by omega), ok_bind]
              have := before_of_not (hbelD (a - 1) pv (by omega) hpv1 hpv2)
              simp [this]
              rfl
            · rw [if_neg ha]; rfl
          rw [stageE, ok_bind]
          simp only [Bool.false_eq_true, if_false]
          obtain ⟨dE, mid, ap, eE, stE, hm1, hm2, PL, PR⟩ :=
            partition_spec dD a b pv hnD hpv1 hpv2 hbD
          rw [eE, ok_bind]
          simp only []
          have stAE := stAD.trans stE
          have hnE := stAE.nodup hn
          have hbE : b ≤ dE.length := by rw [stAE.length]; exact hb
          have hbelE := Below_step stAE hbel
          have hbelR := Below_of_partition dE a mid b hbelE hm1 PL PR
          have hbelL : Below dE a mid := Below_mono hbelE (by omega)
          by_cases hlr : mid - a < b - mid
          · rw [if_pos hlr]
            obtain ⟨d5, e5, st5, so5⟩ := ih dE a mid lim true true hnE hm1 (by omega) (by omega)
              hbelL
            rw [e5, ok_bind]
            obtain ⟨d6, e6, st6, so6⟩ := ih d5 (mid + 1) b lim (decide (mid - a ≥ (b - a) / 8)) ap
              (st5.nodup hnE) (by omega) (by rw [st5.length]; exact hbE) (by omega)
              (Below_step_left st5 hbelR)
            refine ⟨d6, e6, stAE.trans ((st5.mono (Nat.le_refl _) (by omega)).trans
              (st6.mono (by omega) (Nat.le_refl _))), ?_⟩
            apply sorted_join dE d6 a mid b _ _ _ PL PR
              (SortedOn_congr (fun k _ hk2 => st6.out k (Or.inl (by omega))) so5) so6
            · intro k hk1 hk2
              obtain ⟨m, hm1', hm2', e⟩ := st5.inn k hk1 hk2
              exact ⟨m, hm1', hm2', by rw [st6.out k (Or.inl (by omega)), e]⟩
            · intro k hk1 hk2
              obtain ⟨m, hm1', hm2', e⟩ := st6.inn k (by omega) hk2
              exact ⟨m, by omega, hm2', by rw [e, st5.out m (Or.inr (by omega))]⟩
            · rw [st6.out mid (Or.inl (by omega)), st5.out mid (Or.inr (Nat.le_refl _))]
          · rw [if_neg hlr]
            obtain ⟨d5, e5, st5, so5⟩ := ih dE (mid + 1) b lim true true hnE (by omega) hbE
              (by omega) hbelR
            rw [e5, ok_bind]
            obtain ⟨d6, e6, st6, so6⟩ := ih d5 a mid lim (decide (b - mid ≥ (b - a) / 8)) ap
              (st5.nodup hnE) hm1 (by rw [st5.length]; omega) (by omega)
              (Below_step_right st5 hbelL)
            refine ⟨d6, e6, stAE.trans ((st5.mono (by omega) (Nat.le_refl _)).trans
              (st6.mono (Nat.le_refl _) (by omega))), ?_⟩
            apply sorted_join dE d6 a mid b _ _ _ PL PR so6
              (SortedOn_congr (fun k hk1 _ => st6.out k (Or.inr (by omega))) so5)
            · intro k hk1 hk2
              obtain ⟨m, hm1', hm2', e⟩ := st6.inn k hk1 hk2
              exact ⟨m, hm1', hm2', by rw [e, st5.out m (Or.inl (by omega))]⟩
            · intro k hk1 hk2
              obtain ⟨m, hm1', hm2', e⟩ := st5.inn k (by omega) hk2
              exact ⟨m, by omega, hm2', by rw [st6.out k (Or.inr (by omega)), e]⟩
            · rw [st6.out mid (Or.inr (Nat.le_refl _)), st5.out mid (Or.inl (by omega))]

theorem sort_Sort_spec (d : Endpoints) (hn : (d.map Endpoint.Path).Nodup) :
    ∃ d', sort_Sort d = .ok d' ∧ d'.Perm d ∧ SortedOn d' 0 d'.length := by
  simp only [sort_Sort, Endpoints.Len]
  by_cases h1 : d.length ≤ 1
  · rw [if_pos h1]
    refine ⟨d, rfl, List.Perm.refl _, ?_⟩
    intro p q _ hpq hq
    have : p = q := by omega
    subst this
    exact before_refl _
  · rw [if_neg h1]
    obtain ⟨d', e, st, so⟩ := pdqsort_spec (d.length + 1) d 0 d.length (bitsLen d.length) true true
      hn (Nat.zero_le _) (Nat.le_refl _) (by omega) (fun p q hp _ _ => by omega)
    exact ⟨d', e, st.perm, by rw [st.length]; exact so⟩

theorem before_iff_keyLe (x y : Endpoint) : before x y ↔ keyLe (routeKey x) (routeKey y) := by
  simp only [before, keyLe, routeKey, cls]
  rcases Bool.eq_false_or_eq_true (isDynamic x.Path) with h1 | h1 <;>
  rcases Bool.eq_false_or_eq_true (isDynamic y.Path) with h2 | h2 <;>
  simp [h1, h2]

theorem keyLe_antisymm (k1 k2 : Bool × Nat) (h1 : keyLe k1 k2) (h2 : keyLe k2 k1) : k1 = k2 := by
  obtain ⟨a1, n1⟩ := k1
  obtain ⟨a2, n2⟩ := k2
  simp only [keyLe] at h1 h2
  rcases h1 with ⟨h, h'⟩ | ⟨h, h'⟩ <;> rcases h2 with ⟨g, g'⟩ | ⟨g, g'⟩
  · rw [h] at g'; cases g'
  · rw [h, h'] at g; cases g
  · rw [g, g'] at h; cases h
  · have : n1 = n2 := by omega
    rw [h, this]

theorem SortedOn_pairwise (s : Endpoints) (h : SortedOn s 0 s.length) : s.Pairwise before := by
  rw [List.pairwise_iff_getElem]
  intro i j hi hj hij
  have := h i j (Nat.zero_le _) (by omega) hj
  have e1 := getElem?_eq_nth hi
  have e2 := getElem?_eq_nth hj
  rw [List.getElem?_eq_getElem hi] at e1
  rw [List.getElem?_eq_getElem hj] at e2
  simp only [Option.some.injEq] at e1 e2
  rw [e1, e2]
  exact this

theorem index_lt_of_not_before (s : Endpoints) (h : SortedOn s 0 s.length) (i j : Nat)
    (x y : Endpoint) (hx : s[i]? = some x) (hy : s[j]? = some y) (hxy : ¬ before y x) :
    i < j := by
  by_contra hc
  have hi : i < s.length := by
    by_contra h'
    rw [List.getElem?_eq_none (by omega)] at hx
    cases hx
  apply hxy
  rw [← nth_eq_of_getElem? hx, ← nth_eq_of_getElem? hy]
  exact h j i (Nat.zero_le _) (by omega) hi

/-- C1. For every list of endpoints with pairwise distinct paths, `sort.Sort`
returns (no panic, no index error, no exhausted budget) a permutation of the
list in which every static endpoint is at a smaller index than every dynamic
endpoint; and `["/users/{id}", "/users/active"]` sorts to
`["/users/active", "/users/{id}"]`, whatever the methods. -/
theorem Sort_static_before_dynamic (l : Endpoints) (h : (l.map Endpoint.Path).Nodup) :
    (∃ s, sort_Sort l = .ok s ∧ s.Perm l
        ∧ ∀ (i j : Nat) (x y : Endpoint), s[i]? = some x → s[j]? = some y →
            isDynamic x.Path = false → isDynamic y.Path = true → i < j)
      ∧ ∀ m1 m2 : List String,
          sort_Sort [{ Path := "/users/{id}", Methods := m1 },
              { Path := "/users/active", Methods := m2 }]
            = .ok [{ Path := "/users/active", Methods := m2 },
                { Path := "/users/{id}", Methods := m1 }] := by
  constructor
  · obtain ⟨s, e, hp, hs⟩ := sort_Sort_spec l h
    refine ⟨s, e, hp, ?_⟩
    intro i j x y hx hy h1 h2
    apply index_lt_of_not_before s hs i j x y hx hy
    simp [before, cls, h1, h2]
  · intro m1 m2
    rfl

/-- C1 at an explicit list. -/
theorem Sort_static_before_dynamic_witness :
    (([ep "/users/{id}", ep "/a", ep "/users/active"] : Endpoints).map Endpoint.Path).Nodup
      ∧ ((∃ s, sort_Sort [ep "/users/{id}", ep "/a", ep "/users/active"] = .ok s
            ∧ s.Perm [ep "/users/{id}", ep "/a", ep "/users/active"]
            ∧ ∀ (i j : Nat) (x y : Endpoint), s[i]? = some x → s[j]? = some y →
                isDynamic x.Path = false → isDynamic y.Path = true → i < j)
        ∧ ∀ m1 m2 : List String,
            sort_Sort [{ Path := "/users/{id}", Methods := m1 },
                { Path := "/users/active", Methods := m2 }]
              = .ok [{ Path := "/users/active", Methods := m2 },
                  { Path := "/users/{id}", Methods := m1 }]) :=
  ⟨by decide, Sort_static_before_dynamic _ (by decide)⟩

/-- C2. For every list of endpoints with pairwise distinct paths, in the sorted
result two endpoints of the same class whose paths differ in length appear with
the longer path at the smaller index. -/
theorem Sort_longer_first (l : Endpoints) (h : (l.map Endpoint.Path).Nodup) :
    ∃ s, sort_Sort l = .ok s ∧ s.Perm l
      ∧ ∀ (i j : Nat) (x y : Endpoint), s[i]? = some x → s[j]? = some y →
          isDynamic x.Path = isDynamic y.Path → len y.Path < len x.Path → i < j := by
  obtain ⟨s, e, hp, hs⟩ := sort_Sort_spec l h
  refine ⟨s, e, hp, ?_⟩
  intro i j x y hx hy h1 h2
  apply index_lt_of_not_before s hs i j x y hx hy
  simp only [before, cls, h1]
  omega

/-- C2 at an explicit list. -/
theorem Sort_longer_first_witness :
    (([ep "/a", ep "/users", ep "/{id}", ep "/ab"] : Endpoints).map Endpoint.Path).Nodup
      ∧ ∃ s, sort_Sort [ep "/a", ep "/users", ep "/{id}", ep "/ab"] = .ok s
        ∧ s.Perm [ep "/a", ep "/users", ep "/{id}", ep "/ab"]
        ∧ ∀ (i j : Nat) (x y : Endpoint), s[i]? = some x → s[j]? = some y →
            isDynamic x.Path = isDynamic y.Path → len y.Path < len x.Path → i < j :=
  ⟨by decide, Sort_longer_first _ (by decide)⟩

/-- C3, evaluated. Registering `"/users/{id}"` twice panics with the message of
`Endpoints.Less`; but on twenty static endpoints with paths of one length, of
which the two at indices 1 and 13 have the same path `"/b"`, `sort.Sort`
returns an order instead of panicking: the two equal endpoints are never
compared with each other (after six unbalanced partitions the remaining
fourteen elements are handed to heapSort). -/
theorem Sort_misses_duplicate :
    sort_Sort [ep "/users/{id}", ep "/users/{id}"] = .error samePanic
      ∧ twentyRoutes[1]? = some (ep "/b") ∧ twentyRoutes[13]? = some (ep "/b")
      ∧ sort_Sort twentyRoutes
        = .ok (["/g", "/a", "/e", "/q", "/m", "/d", "/r", "/b", "/j", "/p", "/o", "/h", "/f",
            "/b", "/i", "/s", "/c", "/l", "/t", "/k"].map ep) := by
  decide!

/-- C4 as stated fails: `["/a", "/b"]` and its permutation `["/b", "/a"]` have
distinct paths and sort to different sequences of paths. -/
theorem Sort_depends_on_registration_order :
    ([ep "/a", ep "/b"] : Endpoints).Perm [ep "/b", ep "/a"]
      ∧ (([ep "/a", ep "/b"] : Endpoints).map Endpoint.Path).Nodup
      ∧ sort_Sort [ep "/a", ep "/b"] = .ok [ep "/b", ep "/a"]
      ∧ sort_Sort [ep "/b", ep "/a"] = .ok [ep "/a", ep "/b"]
      ∧ ([ep "/b", ep "/a"] : Endpoints).map Endpoint.Path
          ≠ ([ep "/a", ep "/b"] : Endpoints).map Endpoint.Path := by
  refine ⟨List.Perm.swap _ _ _, by decide, by decide, by decide, by decide⟩

theorem map_eq_of_keys {f : Endpoint → String} {g : Endpoint → Bool × Nat} :
    ∀ (s1 s2 : Endpoints), s1.map g = s2.map g →
    (∀ x ∈ s1, ∀ y ∈ s2, g x = g y → f x = f y) → s1.map f = s2.map f := by
  intro s1
  induction s1 with
  | nil =>
    intro s2 h _
    cases s2 with
    | nil => rfl
    | cons y ys => simp at h
  | cons x xs ih =>
    intro s2 h hinj
    cases s2 with
    | nil => simp at h
    | cons y ys =>
      simp only [List.map_cons, List.cons.injEq] at h ⊢
      refine ⟨hinj x (List.mem_cons_self _ _) y (List.mem_cons_self _ _) h.1, ?_⟩
      exact ih ys h.2 (fun a ha b hb => hinj a (List.mem_cons_of_mem _ ha) b
        (List.mem_cons_of_mem _ hb))

/-- C4, amended. For every list of endpoints with pairwise distinct paths and
every permutation of it, sorting both succeeds and yields the same sequence of
sort keys (class, path length); and where no two endpoints of the list with
different paths share a key, both yield the same sequence of paths. -/
theorem Sort_keys_determined (l1 l2 : Endpoints) (hp : l1.Perm l2)
    (hn : (l1.map Endpoint.Path).Nodup) :
    ∃ s1 s2, sort_Sort l1 = .ok s1 ∧ sort_Sort l2 = .ok s2
      ∧ s1.map routeKey = s2.map routeKey
      ∧ ((∀ x ∈ l1, ∀ y ∈ l1, routeKey x = routeKey y → x.Path = y.Path) →
          s1.map Endpoint.Path = s2.map Endpoint.Path) := by
  have hn2 : (l2.map Endpoint.Path).Nodup := ((hp.map Endpoint.Path).nodup_iff).mp hn
  obtain ⟨s1, e1, p1, so1⟩ := sort_Sort_spec l1 hn
  obtain ⟨s2, e2, p2, so2⟩ := sort_Sort_spec l2 hn2
  have hk : ∀ s : Endpoints, SortedOn s 0 s.length → (s.map routeKey).Pairwise keyLe := by
    intro s hs
    rw [List.pairwise_map]
    exact (SortedOn_pairwise s hs).imp (fun {a b} hab => (before_iff_keyLe a b).mp hab)
  have hperm : s1.Perm s2 := p1.trans (hp.trans p2.symm)
  have hkeys : s1.map routeKey = s2.map routeKey :=
    List.Perm.eq_of_sorted (fun a b _ _ h1 h2 => keyLe_antisymm a b h1 h2) (hk s1 so1)
      (hk s2 so2) (hperm.map routeKey)
  refine ⟨s1, s2, e1, e2, hkeys, ?_⟩
  intro hinj
  apply map_eq_of_keys s1 s2 hkeys
  intro x hx y hy hxy
  exact hinj x (p1.subset hx) y ((hp.symm.subset (p2.subset hy))) hxy

/-- C4, amended, at an explicit list and permutation. -/
theorem Sort_keys_determined_witness :
    ([ep "/a", ep "/bb", ep "/{id}"] : Endpoints).Perm [ep "/{id}", ep "/a", ep "/bb"]
      ∧ (([ep "/a", ep "/bb", ep "/{id}"] : Endpoints).map Endpoint.Path).Nodup
      ∧ ∃ s1 s2, sort_Sort [ep "/a", ep "/bb", ep "/{id}"] = .ok s1
          ∧ sort_Sort [ep "/{id}", ep "/a", ep "/bb"] = .ok s2
          ∧ s1.map routeKey = s2.map routeKey
          ∧ ((∀ x ∈ ([ep "/a", ep "/bb", ep "/{id}"] : Endpoints),
                ∀ y ∈ ([ep "/a", ep "/bb", ep "/{id}"] : Endpoints),
                routeKey x = routeKey y → x.Path = y.Path) →
              s1.map Endpoint.Path = s2.map Endpoint.Path) :=
  have hp : ([ep "/a", ep "/bb", ep "/{id}"] : Endpoints).Perm [ep "/{id}", ep "/a", ep "/bb"] :=
    @List.perm_append_comm _ [ep "/a", ep "/bb"] [ep "/{id}"]
  ⟨hp, by decide, Sort_keys_determined _ _ hp (by decide)⟩

/-! ## Theorems: Server.go -/

theorem foldl_apply_snoc (ms : List MiddlewareFunc) (h : Handler) :
    ms.foldl (fun handler m => m handler) h = ms.reverse.foldr (fun m handler => m handler) h := by
  induction ms generalizing h with
  | nil => rfl
  | cons m ms ih =>
    rw [List.foldl_cons, ih, List.reverse_cons, List.foldr_append]
    rfl

/-- C5 as stated fails: with `m1` registered before `m2`, ServeHTTP runs
`m2(m1(mux))`, so `m2` sees the request first, not `m1(m2(mux))`. -/
theorem ServeHTTP_first_registered_not_outermost :
    ((NewServeMux (mark "mux")).Use [tag "m1", tag "m2"]).ServeHTTP [] (methodRequest "GET")
        = [WriterCall.write "m2", WriterCall.write "m1", WriterCall.write "mux"]
      ∧ (tag "m1" (tag "m2" (mark "mux"))) [] (methodRequest "GET")
        = [WriterCall.write "m1", WriterCall.write "m2", WriterCall.write "mux"]
      ∧ ((NewServeMux (mark "mux")).Use [tag "m1", tag "m2"]).ServeHTTP [] (methodRequest "GET")
        ≠ (tag "m1" (tag "m2" (mark "mux"))) [] (methodRequest "GET") := by
  refine ⟨rfl, rfl, ?_⟩
  decide

/-- C5, amended. For every sequence of `Use` calls, the registered middlewares
are the concatenation of the arguments in call order and the handler run by
ServeHTTP is composed inner-first: the first registered middleware wraps the
mux directly and the last registered one is the outermost wrapper,
`mn(...(m2(m1(mux)))...)`. -/
theorem ServeHTTP_last_registered_outermost (calls : List (List MiddlewareFunc))
    (mux : Handler) (w : ResponseWriter) (r : Request) :
    (calls.foldl ServeMux.Use (NewServeMux mux)).middlewares = calls.flatten
      ∧ (calls.foldl ServeMux.Use (NewServeMux mux)).ServeHTTP w r
        = (calls.flatten.reverse.foldr (fun m handler => m handler) mux) w r := by
  have key : ∀ (cs : List (List MiddlewareFunc)) (sm : ServeMux),
      (cs.foldl ServeMux.Use sm).middlewares = sm.middlewares ++ cs.flatten
        ∧ (cs.foldl ServeMux.Use sm).mux = sm.mux := by
    intro cs
    induction cs with
    | nil => intro sm; simp
    | cons c cs ih =>
      intro sm
      obtain ⟨h1, h2⟩ := ih (sm.Use c)
      rw [List.foldl_cons, h1, h2]
      simp [ServeMux.Use]
  obtain ⟨h1, h2⟩ := key calls (NewServeMux mux)
  refine ⟨by simpa [NewServeMux] using h1, ?_⟩
  simp only [ServeMux.ServeHTTP, foldl_apply_snoc]
  rw [h1, h2]
  simp [NewServeMux]

/-! ## Theorems: middlewares/Allow.go -/

/-- C6, evaluated. Allow configured for POST answers an OPTIONS request with the
405 response (Content-Type text/plain, status 405, body `method not allowed`):
the test for OPTIONS comes after the test for a mismatch. -/
theorem Allow_options_mismatch_writes_405 :
    asciiLower "OPTIONS" ≠ asciiLower "POST"
      ∧ Allow asciiLower (mark "inner") "POST" [] (methodRequest "OPTIONS")
        = [WriterCall.setHeader "Content-Type" "text/plain", WriterCall.writeHeader 405,
            WriterCall.write "method not allowed"] := by
  decide

/-- What Allow does with a request whose method is exactly `OPTIONS`: when the
method equals the allowed method up to case, Allow writes nothing and does not
invoke the inner handler; when it differs, Allow writes the plain-text 405
response and does not invoke the inner handler. -/
theorem Allow_options (ToLower : String → String) (next : Handler) (allowedMethod : String)
    (w : ResponseWriter) (r : Request) (hm : r.Method = "OPTIONS") :
    (ToLower r.Method = ToLower allowedMethod → Allow ToLower next allowedMethod w r = w)
      ∧ (ToLower r.Method ≠ ToLower allowedMethod →
          Allow ToLower next allowedMethod w r
            = w ++ [WriterCall.setHeader "Content-Type" "text/plain", WriterCall.writeHeader 405,
                WriterCall.write "method not allowed"]) := by
  constructor
  · intro h
    simp only [Allow]
    rw [if_neg (not_not.mpr h), if_pos hm]
  · intro h
    simp [Allow, h]

/-- The OPTIONS behaviour of Allow at an explicit request. -/
theorem Allow_options_witness :
    (asciiLower "OPTIONS" = asciiLower "options" →
        Allow asciiLower (mark "inner") "options" [] (methodRequest "OPTIONS") = [])
      ∧ (asciiLower "OPTIONS" ≠ asciiLower "options" →
          Allow asciiLower (mark "inner") "options" [] (methodRequest "OPTIONS")
            = [] ++ [WriterCall.setHeader "Content-Type" "text/plain", WriterCall.writeHeader 405,
                WriterCall.write "method not allowed"]) :=
  Allow_options asciiLower (mark "inner") "options" [] (methodRequest "OPTIONS") rfl

/-- C7 as stated fails: the method `OPTIONS` matches the allowed method
`options` up to case, and Allow returns without invoking the inner handler. -/
theorem Allow_matching_options_not_delegated :
    asciiLower "OPTIONS" = asciiLower "options"
      ∧ Allow asciiLower (mark "inner") "options" [] (methodRequest "OPTIONS") = []
      ∧ mark "inner" [] (methodRequest "OPTIONS") = [WriterCall.write "inner"] := by
  decide

/-- C7, amended. For every request whose method equals the allowed method up
to case and is not exactly `OPTIONS`, the handler returned by Allow does what
one call of the inner handler on the same writer and request does, and nothing
else. -/
theorem Allow_match_delegates (ToLower : String → String) (next : Handler)
    (allowedMethod : String) (w : ResponseWriter) (r : Request)
    (hmatch : ToLower r.Method = ToLower allowedMethod) (hopt : r.Method ≠ "OPTIONS") :
    Allow ToLower next allowedMethod w r = next w r := by
  simp [Allow, hmatch, hopt]

/-- C7, amended, for the allowed method POST and the request method post. -/
theorem Allow_match_delegates_witness :
    asciiLower "post" = asciiLower "POST"
      ∧ Allow asciiLower (mark "inner") "POST" [] (methodRequest "post")
        = mark "inner" [] (methodRequest "post") :=
  ⟨by decide, Allow_match_delegates asciiLower (mark "inner") "POST" [] (methodRequest "post")
    (by decide) (by decide)⟩

/-- C8. For every request whose method differs from the allowed method up to
case (in particular one that is not OPTIONS), the handler returned by Allow
sets Content-Type to text/plain, writes status 405 and the body
`method not allowed`, and does not invoke the inner handler. -/
theorem Allow_mismatch_405 (ToLower : String → String) (next : Handler)
    (allowedMethod : String) (w : ResponseWriter) (r : Request)
    (hdiff : ToLower r.Method ≠ ToLower allowedMethod) :
    Allow ToLower next allowedMethod w r
      = w ++ [WriterCall.setHeader "Content-Type" "text/plain", WriterCall.writeHeader 405,
          WriterCall.write "method not allowed"] := by
  simp [Allow, hdiff]

/-- C8 for the allowed method POST and the request method GET. -/
theorem Allow_mismatch_405_witness :
    Allow asciiLower (mark "inner") "POST" [] (methodRequest "GET")
      = [] ++ [WriterCall.setHeader "Content-Type" "text/plain", WriterCall.writeHeader 405,
          WriterCall.write "method not allowed"] :=
  Allow_mismatch_405 asciiLower (mark "inner") "POST" [] (methodRequest "GET") (by decide)

/-! ## Theorems: middlewares/CaptureAuth.go -/

theorem cutFirst_some (sep : Char) (s p q : List Char) (h : cutFirst sep s = some (p, q)) :
    s = p ++ sep :: q := by
  induction s generalizing p q with
  | nil => simp [cutFirst] at h
  | cons c cs ih =>
    simp only [cutFirst] at h
    split at h
    · rename_i hc
      cases h
      simp [hc]
    · split at h
      · cases h
      · rename_i p1 q1 h1
        cases h
        simp [ih p1 q h1]

theorem SplitN_two (sep : Char) (s : List Char) :
    SplitN sep 2 s = match cutFirst sep s with
      | none => [String.mk s]
      | some (p, q) => [String.mk p, String.mk q] := by
  cases h : cutFirst sep s <;> simp [SplitN, h]

theorem SplitN_bearer (t : String) :
    SplitN ' ' 2 ("Bearer " ++ t).data = ["Bearer", t] := by
  have h : ("Bearer " ++ t).data = 'B' :: 'e' :: 'a' :: 'r' :: 'e' :: 'r' :: ' ' :: t.data := by
    simp [String.data_append]
  rw [SplitN_two, h]
  simp [cutFirst]

/-- C9 as stated fails: the header `Bearer a b` has three space-separated
tokens, yet CaptureAuth invokes the next handler, with the token `a b`, and not
the callback. -/
theorem CaptureAuth_three_tokens_delegates :
    CaptureAuth echoToken reject [] (authRequest "Bearer a b") = [WriterCall.write "a b"]
      ∧ reject [] = [WriterCall.writeHeader 400] := by
  decide

/-- C9, amended. For every request whose Authorization header is absent or is
not the text `Bearer`, one space, and a token (the rest of the header, further
spaces included), CaptureAuth calls onInvalidHeader once with the writer and
does not invoke the next handler. -/
theorem CaptureAuth_invalid (next : Handler) (onInvalidHeader : ResponseWriter → ResponseWriter)
    (w : ResponseWriter) (r : Request)
    (h : ¬ ∃ t : String, r.HeaderGet "Authorization" = "Bearer " ++ t) :
    CaptureAuth next onInvalidHeader w r = onInvalidHeader w := by
  simp only [CaptureAuth]
  rw [if_pos]
  rw [SplitN_two]
  cases hc : cutFirst ' ' (r.HeaderGet "Authorization").data with
  | none => left; simp
  | some pq =>
    obtain ⟨p, q⟩ := pq
    right
    intro hp
    apply h
    refine ⟨String.mk q, ?_⟩
    have hs := cutFirst_some _ _ _ _ hc
    simp only [List.getD_cons_zero] at hp
    apply String.ext
    rw [hs, String.data_append]
    have : p = "Bearer".data := by rw [← hp]
    rw [this]
    simp

/-- C9, amended, for the header abc123. -/
theorem CaptureAuth_invalid_witness :
    (¬ ∃ t : String, (authRequest "abc123").HeaderGet "Authorization" = "Bearer " ++ t)
      ∧ CaptureAuth echoToken reject [] (authRequest "abc123") = reject [] :=
  have h : ¬ ∃ t : String, (authRequest "abc123").HeaderGet "Authorization" = "Bearer " ++ t := by
    rintro ⟨t, ht⟩
    have := congrArg (fun s : String => s.data.head?) ht
    simp [String.data_append, authRequest, Request.HeaderGet, List.lookup] at this
  ⟨h, CaptureAuth_invalid echoToken reject [] (authRequest "abc123") h⟩

/-- C10. For every token `t` (in particular a non-empty one without a space), a
request with the Authorization header `Bearer ` followed by `t` makes
CaptureAuth invoke the next handler once, on the same writer, with a request
whose context maps `authtoken` to `t`; onInvalidHeader is not called. -/
theorem CaptureAuth_bearer (next : Handler) (onInvalidHeader : ResponseWriter → ResponseWriter)
    (w : ResponseWriter) (r : Request) (t : String)
    (h : r.HeaderGet "Authorization" = "Bearer " ++ t) :
    CaptureAuth next onInvalidHeader w r
        = next w (r.WithContext (WithValue r.Context "authtoken" t))
      ∧ Value (r.WithContext (WithValue r.Context "authtoken" t)).Context "authtoken" = some t := by
  constructor
  · simp only [CaptureAuth]
    rw [h, SplitN_bearer]
    simp
  · simp [Value, WithValue, Request.WithContext, List.lookup]

/-- C10 for the header Bearer abc123. -/
theorem CaptureAuth_bearer_witness :
    CaptureAuth echoToken reject [] (authRequest "Bearer abc123")
        = echoToken [] ((authRequest "Bearer abc123").WithContext
            (WithValue (authRequest "Bearer abc123").Context "authtoken" "abc123"))
      ∧ Value ((authRequest "Bearer abc123").WithContext
            (WithValue (authRequest "Bearer abc123").Context "authtoken" "abc123")).Context
          "authtoken" = some "abc123" :=
  CaptureAuth_bearer echoToken reject [] (authRequest "Bearer abc123") "abc123" (by decide)

/-! ## Theorems: Requests.go, middlewares/realIP.go and middlewares/CaptureIP.go -/

/-- C11. For every request, RealIP and realIP return the X-Forwarded-For value
when it is non-empty and RemoteAddr otherwise, hence the same string; CaptureIP
binds that string to the context key `ip` and runs the next handler once, on
the same writer. With RemoteAddr `127.0.0.1` the result is `127.0.0.1` without
the header and `127.0.0.2` with `X-Forwarded-For: 127.0.0.2`. -/
theorem RealIP_forwarded_or_remote (r : Request) :
    (r.HeaderGet "X-Forwarded-For" ≠ "" → RealIP r = r.HeaderGet "X-Forwarded-For")
      ∧ (r.HeaderGet "X-Forwarded-For" = "" → RealIP r = r.RemoteAddr)
      ∧ realIP r = RealIP r
      ∧ (∀ (next : Handler) (w : ResponseWriter),
          CaptureIP next w r = next w (r.WithContext (WithValue r.Context "ip" (RealIP r))))
      ∧ Value (r.WithContext (WithValue r.Context "ip" (RealIP r))).Context "ip"
          = some (RealIP r)
      ∧ RealIP (methodRequest "GET") = "127.0.0.1"
      ∧ RealIP (forwardedRequest "127.0.0.2") = "127.0.0.2" := by
  refine ⟨?_, ?_, rfl, ?_, ?_, by decide, by decide⟩
  · intro h; simp [RealIP, h]
  · intro h; simp [RealIP, h]
  · intro next w; rfl
  · simp [Value, WithValue, Request.WithContext, List.lookup]

/-! ## Theorems: middlewares/StatusRecorder.go and middlewares/RequestLogger.go -/

theorem getLast?_getD_cons (k s0 : Nat) (l : List Nat) :
    (k :: l).getLast?.getD s0 = l.getLast?.getD k := by
  cases l with
  | nil => rfl
  | cons x xs =>
    rw [List.getLast?_cons_cons, List.getLast?_eq_getLast _ (List.cons_ne_nil x xs)]
    rfl

theorem statusRecorder_calls (cs : List WriterCall) : ∀ (w : ResponseWriter) (s0 : Nat),
    (statusRecorder.calls { ResponseWriter := w, Status := s0 } cs).Status
        = (writeHeaderCodes cs).getLast?.getD s0
      ∧ (statusRecorder.calls { ResponseWriter := w, Status := s0 } cs).ResponseWriter
        = w ++ cs := by
  induction cs with
  | nil => intro w s0; simp [statusRecorder.calls, writeHeaderCodes]
  | cons c cs ih =>
    intro w s0
    cases c with
    | setHeader k v =>
      have := ih (w ++ [WriterCall.setHeader k v]) s0
      simpa [statusRecorder.calls, statusRecorder.call, statusRecorder.HeaderSet,
        writeHeaderCodes] using this
    | write b =>
      have := ih (w ++ [WriterCall.write b]) s0
      simpa [statusRecorder.calls, statusRecorder.call, statusRecorder.Write,
        writeHeaderCodes] using this
    | writeHeader code =>
      have := ih (w ++ [WriterCall.writeHeader code]) code
      have e : writeHeaderCodes (WriterCall.writeHeader code :: cs)
          = code :: writeHeaderCodes cs := by simp [writeHeaderCodes]
      rw [e, getLast?_getD_cons]
      simpa [statusRecorder.calls, statusRecorder.call, statusRecorder.WriteHeader] using this

/-- C12. For the recorder the request logger creates (Status 200) and every
sequence of calls the inner handler makes on it: the recorded Status is the
code of the last WriteHeader call, or 200 when there is none; the wrapped
writer has received exactly those calls, unchanged and in order; a Write (and a
header Set) leaves Status as it is; and the logger logs that Status. -/
theorem statusRecorder_records_last_status (w : ResponseWriter) (cs : List WriterCall) :
    (statusRecorder.calls { ResponseWriter := w, Status := 200 } cs).Status
        = (writeHeaderCodes cs).getLast?.getD 200
      ∧ (statusRecorder.calls { ResponseWriter := w, Status := 200 } cs).ResponseWriter
        = w ++ cs
      ∧ (∀ (sr : statusRecorder) (b : String), (sr.Write b).Status = sr.Status)
      ∧ (∀ (sr : statusRecorder) (k v : String), (sr.HeaderSet k v).Status = sr.Status)
      ∧ (∀ (sr : statusRecorder) (code : Nat), (sr.WriteHeader code).Status = code)
      ∧ (∀ r : Request, requestLogger.ServeHTTP (fun sr _ => sr.calls cs) w r
          = (w ++ cs, { ip := realIP r, method := r.Method,
                        status := (writeHeaderCodes cs).getLast?.getD 200 })) := by
  obtain ⟨h1, h2⟩ := statusRecorder_calls cs w 200
  refine ⟨h1, h2, fun _ _ => rfl, fun _ _ _ => rfl, fun _ _ => rfl, ?_⟩
  intro r
  simp only [requestLogger.ServeHTTP, h1, h2]

/-! ## Theorems: middlewares/AccessControl.go -/

/-- C13. For every triple of values and every request, whatever its method, the
handler built by AccessControl sets the three Access-Control headers to those
values and then does what one call of the inner handler does on that writer
and the same request; when the inner handler starts, the three headers have
the configured values. -/
theorem AccessControl_sets_headers_then_delegates (allowOrigin allowMethods allowHeaders : String)
    (next : Handler) (w : ResponseWriter) (r : Request) :
    AccessControl allowOrigin allowMethods allowHeaders next w r
        = next (w ++ [WriterCall.setHeader "Access-Control-Allow-Origin" allowOrigin,
                      WriterCall.setHeader "Access-Control-Allow-Methods" allowMethods,
                      WriterCall.setHeader "Access-Control-Allow-Headers" allowHeaders]) r
      ∧ headerValue (w ++ [WriterCall.setHeader "Access-Control-Allow-Origin" allowOrigin,
                      WriterCall.setHeader "Access-Control-Allow-Methods" allowMethods,
                      WriterCall.setHeader "Access-Control-Allow-Headers" allowHeaders])
          "Access-Control-Allow-Origin" = some allowOrigin
      ∧ headerValue (w ++ [WriterCall.setHeader "Access-Control-Allow-Origin" allowOrigin,
                      WriterCall.setHeader "Access-Control-Allow-Methods" allowMethods,
                      WriterCall.setHeader "Access-Control-Allow-Headers" allowHeaders])
          "Access-Control-Allow-Methods" = some allowMethods
      ∧ headerValue (w ++ [WriterCall.setHeader "Access-Control-Allow-Origin" allowOrigin,
                      WriterCall.setHeader "Access-Control-Allow-Methods" allowMethods,
                      WriterCall.setHeader "Access-Control-Allow-Headers" allowHeaders])
          "Access-Control-Allow-Headers" = some allowHeaders := by
  refine ⟨?_, ?_, ?_, ?_⟩
  · simp [AccessControl, accessControl.ServeHTTP]
  · simp [headerValue, List.filterMap_append, List.filterMap_cons]
  · simp [headerValue, List.filterMap_append, List.filterMap_cons]
  · simp [headerValue, List.filterMap_append, List.filterMap_cons]

/-! ## Theorems: Responses.go -/

/-- C14. For every status argument and every value whose encoding fails,
WriteJSON sets Content-Type to application/json, writes the status 500 and
writes the fixed body (the encoding of its own struct, with the fields
`message` and `suggestion`), and nothing else: the calls made on the writer do
not depend on the value, the status argument or the error. On a fresh writer
the response has Content-Type application/json, status 500 and the fixed
body. -/
theorem WriteJSON_marshal_error {α : Type} (Marshal : α → Except String String)
    (w : ResponseWriter) (status : Nat) (value : α) (err : String)
    (h : Marshal value = Except.error err) :
    WriteJSON Marshal w status value
        = w ++ [WriterCall.setHeader "Content-Type" "application/json",
                WriterCall.writeHeader 500,
                WriterCall.write
                  "\x7b\"message\":\"Error marshaling value for writing\",\"suggestion\":\"See error log for more information\"\x7d"]
      ∧ headerValue (WriteJSON Marshal [] status value) "Content-Type" = some "application/json"
      ∧ statusCode (WriteJSON Marshal [] status value) = 500
      ∧ body (WriteJSON Marshal [] status value)
          = "\x7b\"message\":\"Error marshaling value for writing\",\"suggestion\":\"See error log for more information\"\x7d" := by
  have hb : errorMessage.Marshal
      { Message := "Error marshaling value for writing",
        Suggestion := "See error log for more information" }
      = "\x7b\"message\":\"Error marshaling value for writing\",\"suggestion\":\"See error log for more information\"\x7d" := by
    decide
  have e : ∀ w0 : ResponseWriter, WriteJSON Marshal w0 status value
      = w0 ++ [WriterCall.setHeader "Content-Type" "application/json",
                WriterCall.writeHeader 500,
                WriterCall.write
                  "\x7b\"message\":\"Error marshaling value for writing\",\"suggestion\":\"See error log for more information\"\x7d"] := by
    intro w0
    simp only [WriteJSON, h, hb, List.append_assoc, List.cons_append, List.nil_append]
  refine ⟨e w, ?_, ?_, ?_⟩
  · rw [e]; simp [headerValue]
  · rw [e]; simp [statusCode, writeHeaderCodes]
  · rw [e]; simp [body, String.join]

/-- C14 for a function value and the status argument 200. -/
theorem WriteJSON_marshal_error_witness :
    WriteJSON sampleMarshal [] 200 SampleValue.func
        = [] ++ [WriterCall.setHeader "Content-Type" "application/json",
                WriterCall.writeHeader 500,
                WriterCall.write
                  "\x7b\"message\":\"Error marshaling value for writing\",\"suggestion\":\"See error log for more information\"\x7d"]
      ∧ headerValue (WriteJSON sampleMarshal [] 200 SampleValue.func) "Content-Type"
          = some "application/json"
      ∧ statusCode (WriteJSON sampleMarshal [] 200 SampleValue.func) = 500
      ∧ body (WriteJSON sampleMarshal [] 200 SampleValue.func)
          = "\x7b\"message\":\"Error marshaling value for writing\",\"suggestion\":\"See error log for more information\"\x7d" :=
  WriteJSON_marshal_error sampleMarshal [] 200 SampleValue.func
    "json: unsupported type: func() string" rfl

/-- What WriteJSON does with a value whose encoding `b` succeeds: it sets
Content-Type, writes the status only when it is greater than 299, and writes
`b`; on a fresh writer the response has the status argument when that is
greater than 299 and the status 200 otherwise. -/
theorem WriteJSON_marshal_ok {α : Type} (Marshal : α → Except String String)
    (w : ResponseWriter) (status : Nat) (value : α) (b : String)
    (h : Marshal value = Except.ok b) :
    WriteJSON Marshal w status value
        = w ++ [WriterCall.setHeader "Content-Type" "application/json"]
            ++ (if status > 299 then [WriterCall.writeHeader status] else [])
            ++ [WriterCall.write b]
      ∧ headerValue (WriteJSON Marshal [] status value) "Content-Type" = some "application/json"
      ∧ statusCode (WriteJSON Marshal [] status value) = (if status > 299 then status else 200)
      ∧ body (WriteJSON Marshal [] status value) = b := by
  have e : ∀ w0 : ResponseWriter, WriteJSON Marshal w0 status value
      = w0 ++ [WriterCall.setHeader "Content-Type" "application/json"]
            ++ (if status > 299 then [WriterCall.writeHeader status] else [])
            ++ [WriterCall.write b] := by
    intro w0
    by_cases hs : status > 299 <;> simp [WriteJSON, h, hs]
  refine ⟨e w, ?_, ?_, ?_⟩
  · rw [e]; by_cases hs : status > 299 <;> simp [headerValue, hs]
  · rw [e]; by_cases hs : status > 299 <;> simp [statusCode, writeHeaderCodes, hs]
  · rw [e]; by_cases hs : status > 299 <;> simp [body, String.join, hs]

/-- C15, evaluated. With the status argument 201 and a value that encodes,
WriteJSON makes no WriteHeader call, so the response has the status 200, not
201; WriteString with the same argument writes the status 201. With the
arguments of TestWriteJSON (200) the status is 200. -/
theorem WriteJSON_drops_status_201 :
    sampleMarshal (SampleValue.sampleStruct "Adam" 10)
        = Except.ok "\x7b\"name\":\"Adam\",\"age\":10\x7d"
      ∧ WriteJSON sampleMarshal [] 201 (SampleValue.sampleStruct "Adam" 10)
        = [WriterCall.setHeader "Content-Type" "application/json",
            WriterCall.write "\x7b\"name\":\"Adam\",\"age\":10\x7d"]
      ∧ statusCode (WriteJSON sampleMarshal [] 201 (SampleValue.sampleStruct "Adam" 10)) = 200
      ∧ statusCode (WriteString [] 201 "created") = 201
      ∧ statusCode (WriteJSON sampleMarshal [] 200 (SampleValue.sampleStruct "Adam" 10)) = 200 := by
  decide

/-! ## Theorems: Paging.go -/

/-- Without overflow (the product and the sum fit a 64-bit `int`), HasNextPage
returns true exactly when `page * pageSize + pageSize` is less than
`recordCount`. -/
theorem HasNextPage_no_overflow (page pageSize recordCount : Int)
    (h1 : -2 ^ 63 ≤ page * pageSize) (h2 : page * pageSize < 2 ^ 63)
    (h3 : -2 ^ 63 ≤ page * pageSize + pageSize) (h4 : page * pageSize + pageSize < 2 ^ 63) :
    HasNextPage page pageSize recordCount = true
      ↔ page * pageSize + pageSize < recordCount := by
  have w1 : wrapInt (page * pageSize) = page * pageSize := by
    simp only [wrapInt]; omega
  have w2 : wrapInt (page * pageSize + pageSize) = page * pageSize + pageSize := by
    simp only [wrapInt]; omega
  simp [HasNextPage, w1, w2]

/-- C16, evaluated. For page 2, pageSize 50 and recordCount 150 the product
`page * pageSize = 100` is less than `recordCount`, and HasNextPage returns
false, because it compares `page * pageSize + pageSize = 150`; on the two cases
of TestHasNextPage both readings agree. -/
theorem HasNextPage_adds_pageSize :
    (2 : Int) * 50 < 150 ∧ HasNextPage 2 50 150 = false
      ∧ HasNextPage 1 50 150 = true ∧ HasNextPage 3 50 150 = false := by
  decide

/-! ## Theorems: Endpoints.Less as an ordering -/

/-- C17. For two endpoints of a slice with different paths: when they have the
same class and paths of equal length, Less returns true in both directions;
in every other case Less returns true in exactly one direction. Hence Less is
not asymmetric: on `["/a", "/b"]` both `Less(0, 1)` and `Less(1, 0)` are
true. -/
theorem Less_both_directions_on_ties (a : Endpoints) (i j : Nat) (x y : Endpoint)
    (hx : a[i]? = some x) (hy : a[j]? = some y) (hxy : x.Path ≠ y.Path) :
    (isDynamic x.Path = isDynamic y.Path ∧ len x.Path = len y.Path →
        a.Less i j = Except.ok true ∧ a.Less j i = Except.ok true)
      ∧ (¬ (isDynamic x.Path = isDynamic y.Path ∧ len x.Path = len y.Path) →
          (a.Less i j = Except.ok true ∧ a.Less j i = Except.ok false)
            ∨ (a.Less i j = Except.ok false ∧ a.Less j i = Except.ok true))
      ∧ (Endpoints.Less [ep "/a", ep "/b"] 0 1 = Except.ok true
          ∧ Endpoints.Less [ep "/a", ep "/b"] 1 0 = Except.ok true) := by
  have hyx : y.Path ≠ x.Path := Ne.symm hxy
  refine ⟨?_, ?_, by decide, by decide⟩
  · rintro ⟨hc, hl⟩
    simp [Endpoints.Less, hx, hy, hc, hl, hxy, hyx]
  · intro hne
    simp only [Endpoints.Less, hx, hy]
    rcases Bool.eq_false_or_eq_true (isDynamic x.Path) with h1 | h1 <;>
    rcases Bool.eq_false_or_eq_true (isDynamic y.Path) with h2 | h2 <;>
    simp only [h1, h2] at hne ⊢
    · have hl : len x.Path ≠ len y.Path := by simpa using hne
      simp [hl, Ne.symm hl]
      omega
    · simp
    · simp
    · have hl : len x.Path ≠ len y.Path := by simpa using hne
      simp [hl, Ne.symm hl]
      omega

/-- C17 at the endpoints `/a` and `/bb` of one slice. -/
theorem Less_both_directions_on_ties_witness :
    ([ep "/a", ep "/bb"] : Endpoints)[0]? = some (ep "/a")
      ∧ ([ep "/a", ep "/bb"] : Endpoints)[1]? = some (ep "/bb")
      ∧ (ep "/a").Path ≠ (ep "/bb").Path
      ∧ ((isDynamic (ep "/a").Path = isDynamic (ep "/bb").Path
            ∧ len (ep "/a").Path = len (ep "/bb").Path →
          Endpoints.Less [ep "/a", ep "/bb"] 0 1 = Except.ok true
            ∧ Endpoints.Less [ep "/a", ep "/bb"] 1 0 = Except.ok true)
        ∧ (¬ (isDynamic (ep "/a").Path = isDynamic (ep "/bb").Path
              ∧ len (ep "/a").Path = len (ep "/bb").Path) →
            (Endpoints.Less [ep "/a", ep "/bb"] 0 1 = Except.ok true
                ∧ Endpoints.Less [ep "/a", ep "/bb"] 1 0 = Except.ok false)
              ∨ (Endpoints.Less [ep "/a", ep "/bb"] 0 1 = Except.ok false
                ∧ Endpoints.Less [ep "/a", ep "/bb"] 1 0 = Except.ok true))
        ∧ (Endpoints.Less [ep "/a", ep "/b"] 0 1 = Except.ok true
            ∧ Endpoints.Less [ep "/a", ep "/b"] 1 0 = Except.ok true)) :=
  ⟨by decide, by decide, by decide,
    Less_both_directions_on_ties [ep "/a", ep "/bb"] 0 1 (ep "/a") (ep "/bb") (by decide)
      (by decide) (by decide)⟩

end nerdweb
